import Mathlib

/-!
# PqResultSimple: a shallow embedding of `src/PqResultSimple.cpp`

The statement object of the driver is a record of its mutable members; every
member function is a function from that record to the record it leaves behind
together with what it returned or threw.  A C++ exception does not roll the
members back, so the record is returned on the throwing paths as well.

The connection (libpq) is an external collaborator.  It is modelled as a
script: one `Reply` for each query that will be sent, saying whether the send
and the switch to single-row mode succeed, what the socket polls report and
which result objects `PQgetResult` hands out afterwards.
-/

namespace RPostgres

/-! ## Column types -/

/-- Backend type identifier (`Oid`, an unsigned integer in libpq). -/
abbrev Oid := Nat

/-- The generic column types (`DATA_TYPE`). -/
inductive DATA_TYPE where
  | DT_UNKNOWN
  | DT_BOOL
  | DT_INT
  | DT_INT64
  | DT_REAL
  | DT_STRING
  | DT_BLOB
  | DT_DATE
  | DT_DATETIME
  | DT_DATETIMETZ
  | DT_TIME
  deriving DecidableEq

open DATA_TYPE

/-- The `switch` of `_cache::get_column_type_from_oid`. -/
def get_column_type_from_oid (type : Oid) : DATA_TYPE :=
  match type with
  | 20 => DT_INT64
  | 21 => DT_INT
  | 23 => DT_INT
  | 26 => DT_INT
  | 1700 => DT_REAL
  | 701 => DT_REAL
  | 700 => DT_REAL
  | 790 => DT_REAL
  | 18 => DT_STRING
  | 19 => DT_STRING
  | 25 => DT_STRING
  | 1042 => DT_STRING
  | 1043 => DT_STRING
  | 1082 => DT_DATE
  | 1083 => DT_TIME
  | 1266 => DT_TIME
  | 1114 => DT_DATETIME
  | 1184 => DT_DATETIMETZ
  | 1186 => DT_STRING
  | 2950 => DT_STRING
  | 16 => DT_BOOL
  | 17 => DT_BLOB
  | 2278 => DT_BLOB
  | 705 => DT_STRING
  | _ => DT_UNKNOWN

/-- The loop of `_cache::get_column_types`: an unknown type is logged and
replaced by `DT_STRING`.  The column names are only used for the log line. -/
def get_column_types (oids : List Oid) (_names : List String) : List DATA_TYPE :=
  oids.map fun oid =>
    let data_type := get_column_type_from_oid oid
    if data_type = DT_UNKNOWN then DT_STRING else data_type

/-- The loop of `_cache::get_column_known`. -/
def get_column_known (oids : List Oid) : List Bool :=
  oids.map fun oid =>
    let data_type := get_column_type_from_oid oid
    data_type != DT_UNKNOWN

/-- The lookup table as the specification words it: backend id, generic type. -/
def spec_type_table : List (Oid × DATA_TYPE) :=
  [(20, DT_INT64),
   (21, DT_INT), (23, DT_INT), (26, DT_INT),
   (700, DT_REAL), (701, DT_REAL), (790, DT_REAL), (1700, DT_REAL),
   (18, DT_STRING), (19, DT_STRING), (25, DT_STRING), (705, DT_STRING),
   (1042, DT_STRING), (1043, DT_STRING), (1186, DT_STRING), (2950, DT_STRING),
   (1082, DT_DATE),
   (1083, DT_TIME), (1266, DT_TIME),
   (1114, DT_DATETIME),
   (1184, DT_DATETIMETZ),
   (16, DT_BOOL),
   (17, DT_BLOB), (2278, DT_BLOB)]

/-- The resolver of the specification: the table entry with `known = true`,
and `(STRING, false)` for an identifier that has no entry. -/
def spec_resolve (oid : Oid) : DATA_TYPE × Bool :=
  match spec_type_table.lookup oid with
  | some t => (t, true)
  | none => (DT_STRING, false)

/-! ## Result objects and the connection -/

/-- Result status of libpq (`ExecStatusType`). -/
inductive ExecStatusType where
  | PGRES_EMPTY_QUERY
  | PGRES_COMMAND_OK
  | PGRES_TUPLES_OK
  | PGRES_COPY_OUT
  | PGRES_COPY_IN
  | PGRES_BAD_RESPONSE
  | PGRES_NONFATAL_ERROR
  | PGRES_FATAL_ERROR
  | PGRES_COPY_BOTH
  | PGRES_SINGLE_TUPLE
  deriving DecidableEq

open ExecStatusType

/-- A result object (`PGresult`): its status, the string `PQcmdTuples` gives
for it and, in single-row mode, the fields of the one tuple it carries
(`none` is SQL NULL). -/
structure PGresult where
  status : ExecStatusType
  cmd_tuples : String
  values : List (Option String)
  deriving DecidableEq

/-- The libpq call `PQresultStatus`: a NULL result pointer reads as `PGRES_FATAL_ERROR`. -/
def PQresultStatus (res : Option PGresult) : ExecStatusType :=
  match res with
  | some r => r.status
  | none => PGRES_FATAL_ERROR

/-- What `c_params[i]` points at: nothing, the bytes of a raw vector or the
characters of a string. -/
inductive CParam where
  | null
  | raw (bytes : List Nat)
  | chars (s : String)
  deriving DecidableEq

/-- One parameter slot as handed to the backend: `c_params[i]`, `formats[i]`,
`lengths[i]`. -/
structure ParamSlot where
  value : CParam
  format : Nat
  length : Nat
  deriving DecidableEq

/-- One iteration of the `do ... while` loop of `wait_for_data` as the
environment answers it: what `select` returned, the socket error number,
whether a user interrupt is pending, and what `PQconsumeInput` and `PQisBusy`
say afterwards. -/
structure Poll where
  ret : Int
  sockerr : Int
  interrupt : Bool
  consume_ok : Bool
  busy : Bool
  deriving DecidableEq

/-- How the backend answers one sent query. -/
structure Reply where
  send_ok : Bool
  single_row_ok : Bool
  polls : List Poll
  results : List PGresult
  deriving DecidableEq

/-- The description of a prepared statement (`pSpec_`): status, the result
columns (name and type id) and the number of parameters. -/
structure PGspec where
  status : ExecStatusType
  fields : List (String × Oid)
  nparams : Nat
  deriving DecidableEq

/-- The connection.  `script` holds the replies to the queries still to be
sent, `pending` the result objects of the query in flight that `PQgetResult`
has not handed out yet (a finite list: libpq ends every query with NULL),
`polls` what waiting on the socket will report, `single_row_ok` what
`PQsetSingleRowMode` answers, `sent` the log of the parameter rows passed to
`PQsendQuerySimpleared`, oldest first. -/
structure PGconn where
  script : List Reply
  pending : List PGresult
  polls : List Poll
  single_row_ok : Bool
  sent : List (List ParamSlot)
  check_interrupts : Bool
  socket : Int
  prepare_status : ExecStatusType
  described : PGspec
  deriving DecidableEq

/-- The libpq call `PQgetResult`: the next result object of the query in flight, NULL when
there is none. -/
def PQgetResult (c : PGconn) : PGconn × Option PGresult :=
  match c.pending with
  | [] => (c, none)
  | r :: rest => ({ c with pending := rest }, some r)

/-- The loop `while (next != NULL) { PQclear(next); next = PQgetResult(conn); }`
on the results still pending. -/
def drain_results : List PGresult → List PGresult
  | [] => []
  | _ :: rest => drain_results rest

/-- The connection after that loop. -/
def drain (c : PGconn) : PGconn :=
  { c with pending := drain_results c.pending }

/-- Modelled from the spec: `DbConnection::finish_query` is not part of the
source given; every re-send "implicitly finishes consuming the previous result
set", that is, it calls `PQgetResult` until it returns NULL. -/
def finish_query (c : PGconn) : PGconn :=
  drain c

/-- The call `PQsendQuerySimpleared` of the source: the call is logged; the next reply of the script
decides whether the query is accepted, and when it is, its results become the
pending ones.  A script that has run out refuses the send. -/
def PQsendQuerySimpleared (c : PGconn) (row : List ParamSlot) : PGconn × Bool :=
  match c.script with
  | [] => ({ c with sent := c.sent ++ [row] }, false)
  | r :: rest =>
    if r.send_ok then
      ({ c with script := rest, pending := r.results, polls := r.polls,
                single_row_ok := r.single_row_ok, sent := c.sent ++ [row] }, true)
    else
      ({ c with script := rest, sent := c.sent ++ [row] }, false)

/-- The libpq call `PQsetSingleRowMode`. -/
def PQsetSingleRowMode (c : PGconn) : Bool :=
  c.single_row_ok

/-- The value of the leading decimal digits of a text, read from the left. -/
def atoi_digits : List Char → Nat → Nat
  | [], acc => acc
  | ch :: rest, acc =>
    if ch.isDigit then atoi_digits rest (acc * 10 + (ch.toNat - 48)) else acc

/-- The C function `isspace` in the C locale: space, tab, line feed, vertical
tab, form feed, carriage return. -/
def isspace (ch : Char) : Bool :=
  ch.toNat = 32 || (9 ≤ ch.toNat && ch.toNat ≤ 13)

/-- The conversion of an integer to the 32-bit `int` of the source: the value
modulo 2^32 in the range from -2^31 to 2^31 - 1.  Signed overflow wraps around,
as it does on the two's-complement targets the driver is built for. -/
def to_int (z : Int) : Int :=
  (z + 2147483648) % 4294967296 - 2147483648

/-- The number a text starts with once its leading white space is gone: an
optional sign, then decimal digits; anything else ends the number (no digits
give 0). -/
def signed_digits (cs : List Char) : Int :=
  match cs with
  | '-' :: rest => - (atoi_digits rest 0 : Int)
  | '+' :: rest => (atoi_digits rest 0 : Int)
  | _ => (atoi_digits cs 0 : Int)

/-- The C function `strtol` in base 10: leading white space is skipped, the
number is read, and the value saturates at the range of a 64-bit `long`. -/
def strtol (str : String) : Int :=
  let value := signed_digits (str.toList.dropWhile isspace)
  if value > 9223372036854775807 then 9223372036854775807
  else if value < -9223372036854775808 then -9223372036854775808
  else value

/-- The C function `atoi` as libc defines it: `strtol` converted to `int`. -/
def atoi (str : String) : Int :=
  to_int (strtol str)

/-! ## Parameters -/

/-- One element of the parameter list of `bind`: a list column (`VECSXP`)
whose elements are raw vectors or NULL, or any other vector, which the code
reads through `CharacterVector` (`none` is `NA_STRING`). -/
inductive SEXP where
  | VECSXP (elems : List (Option (List Nat)))
  | STRSXP (elems : List (Option String))
  deriving DecidableEq

/-- The length of a vector (`Rf_length`). -/
def Rf_length : SEXP → Nat
  | .VECSXP elems => elems.length
  | .STRSXP elems => elems.length

/-- The body of the `for` loop of `bind_row` for one parameter: the slot starts
as `(NULL, 0, 0)` (the vectors are value-initialised) and is filled from the
element of the column at `group`.  Reading past the end of a column is
undefined in the source; here it reads as NULL / NA. -/
def bind_param (param : SEXP) (group : Nat) : ParamSlot :=
  match param with
  | .VECSXP elems =>
    match elems.get? group with
    | some (some bytes) => { value := .raw bytes, format := 1, length := bytes.length }
    | _ => { value := .null, format := 0, length := 0 }
  | .STRSXP elems =>
    match elems.get? group with
    | some (some str) => { value := .chars str, format := 0, length := 0 }
    | _ => { value := .null, format := 0, length := 0 }

/-- The three vectors `c_params`, `formats`, `lengths` after the `for` loop of
`bind_row`, slot by slot. -/
def bind_params (params : List SEXP) (nparams : Nat) (group : Nat) : List ParamSlot :=
  (List.range nparams).map fun i =>
    match params.get? i with
    | some param => bind_param param group
    | none => { value := .null, format := 0, length := 0 }

/-! ## Errors -/

/-- How an error leaves the code: `stop(...)`, `DbConnection::conn_stop(...)`
(the connection is abandoned) or a user interrupt. -/
inductive Raised where
  | by_stop
  | by_conn_stop
  | by_interrupt
  deriving DecidableEq

/-- The throw sites of the source, one constructor each.  `out_of_fuel` is not
an error of the program: it marks the loop bound of the model, which is never
reached (`step_total`, `fetch_total`). -/
inductive Err where
  | prepare_failed
  | describe_failed
  | params_mismatch (required supplied : Nat)
  | no_params_required
  | not_bound
  | send_failed
  | single_row_failed
  | no_active_query
  | fetch_row_failed
  | no_socket
  | interrupted
  | select_failed (code : Int)
  | consume_failed
  | out_of_fuel
  deriving DecidableEq

/-- The message each throw site passes. -/
def Err.what : Err → String
  | .prepare_failed => "Failed to prepare query"
  | .describe_failed => "Failed to retrieve query result metadata"
  | .params_mismatch required supplied =>
    "Query requires " ++ toString required ++ " params; " ++ toString supplied ++ " supplied."
  | .no_params_required => "Query does not require parameters."
  | .not_bound => "Query needs to be bound before fetching"
  | .send_failed => "Failed to send query"
  | .single_row_failed => "Failed to set single row mode"
  | .no_active_query => "No active query"
  | .fetch_row_failed => "Failed to fetch row"
  | .no_socket => "Failed to get connection socket"
  | .interrupted => ""
  | .select_failed code => "select() failed with error code " ++ toString code
  | .consume_failed => "Failed to consume input from the server"
  | .out_of_fuel => ""

/-- Which call raises each error in the source. -/
def Err.raised : Err → Raised
  | .prepare_failed => .by_conn_stop
  | .describe_failed => .by_conn_stop
  | .send_failed => .by_conn_stop
  | .single_row_failed => .by_conn_stop
  | .fetch_row_failed => .by_conn_stop
  | .interrupted => .by_interrupt
  | _ => .by_stop

/-- The errors `bind` and `fetch` raise about the way they are called: wrong
number of parameters, re-binding a statement without parameters, fetching
before binding. -/
def Err.validation : Err → Bool
  | .params_mismatch _ _ => true
  | .no_params_required => true
  | .not_bound => true
  | _ => false

/-- What a member function hands back: a value, or the error it threw. -/
inductive Outcome (α : Type) where
  | returned (value : α)
  | thrown (e : Err)
  deriving DecidableEq

/-! ## The statement object -/

/-- The class `_cache`: the metadata computed once from the description. -/
structure Cache where
  names_ : List String
  oids_ : List Oid
  types_ : List DATA_TYPE
  known_ : List Bool
  ncols_ : Nat
  nparams_ : Nat
  deriving DecidableEq

/-- The function `_cache::get_column_names`. -/
def get_column_names (spec : PGspec) : List String :=
  spec.fields.map Prod.fst

/-- The function `_cache::get_column_oids`. -/
def get_column_oids (spec : PGspec) : List Oid :=
  spec.fields.map Prod.snd

/-- The constructor `_cache::_cache`. -/
def Cache.of_spec (spec : PGspec) : Cache :=
  let names := get_column_names spec
  let oids := get_column_oids spec
  { names_ := names
    oids_ := oids
    types_ := get_column_types oids names
    known_ := get_column_known oids
    ncols_ := names.length
    nparams_ := spec.nparams }

/-- The members of `PqResultSimple`.  `group_`, `groups_` and `nrows_` are
non-negative `int`s of the source; `rows_affected_` is an `int`: every value
written to it is brought into the range of `int` by `to_int`. -/
structure PqResultSimple where
  pConn_ : PGconn
  cache : Cache
  complete_ : Bool
  ready_ : Bool
  data_ready_ : Bool
  nrows_ : Nat
  rows_affected_ : Int
  group_ : Nat
  groups_ : Nat
  pRes_ : Option PGresult
  params_ : List SEXP
  deriving DecidableEq

/-- The state a member function leaves and what it returned or threw. -/
abbrev Ret (α : Type) := PqResultSimple × Outcome α

/-- The list `fetch` returns to R: the rows of the chunk and the attributes
`add_oids` attaches. -/
structure RList where
  names : List String
  types : List DATA_TYPE
  rows : List (List (Option String))
  oids : Option (List Oid)
  known : Option (List Bool)
  without_tz : Option (List Bool)
  deriving DecidableEq

/-- Modelled from the spec: the class `PqDataFrame` is not part of the source
given.  It is the chunk collector: it receives decoded rows one at a time,
says when the chunk is full and hands out the chunk.  `cells` are the rows
written so far, `i` how many of them are accepted. -/
structure PqDataFrame where
  names : List String
  types : List DATA_TYPE
  n_max : Int
  i : Nat
  cells : List (List (Option String))
  deriving DecidableEq

/-- Modelled from the spec: the constructor of `PqDataFrame`, an empty
collector for at most `n_max` rows (unbounded when `n_max < 0`). -/
def PqDataFrame.create (names : List String) (n_max : Int) (types : List DATA_TYPE) :
    PqDataFrame :=
  { names := names, types := types, n_max := n_max, i := 0, cells := [] }

/-- Modelled from the spec: `PqDataFrame::set_col_values` decodes the row of
the current result object into the row slot after the accepted ones. -/
def PqDataFrame.set_col_values (d : PqDataFrame) (res : Option PGresult) : PqDataFrame :=
  { d with cells := d.cells.take d.i ++ [match res with
                                         | some r => r.values
                                         | none => []] }

/-- Modelled from the spec: `PqDataFrame::advance` accepts the row just
written and says whether the chunk takes more rows (it is not full). -/
def PqDataFrame.advance (d : PqDataFrame) : PqDataFrame × Bool :=
  ({ d with i := d.i + 1 }, decide (d.n_max < 0 ∨ ((d.i + 1 : Nat) : Int) < d.n_max))

/-- Modelled from the spec: `PqDataFrame::get_data` hands out the accepted
rows; a row written but not accepted is dropped. -/
def PqDataFrame.get_data (d : PqDataFrame) : RList :=
  { names := d.names, types := d.types, rows := d.cells.take d.i,
    oids := none, known := none, without_tz := none }

namespace PqResultSimple

/-- Modelled from the spec: `DbConnection::conn_stop` is not part of the source
given.  It raises the connection-fatal error with the message it is passed;
as with every exception the members of the statement stay as they are. -/
abbrev conn_stop {α : Type} (e : Err) : Outcome α :=
  .thrown e

/-- Modelled from the spec: `DbConnection::is_check_interrupts` is not part of
the source given.  It says whether the caller has opted into the checking of
interrupts while waiting. -/
abbrev is_check_interrupts (c : PGconn) : Bool :=
  c.check_interrupts

/-- The member function `PqResultSimple::prepare`: both round trips must answer
`PGRES_COMMAND_OK`. -/
def prepare (conn : PGconn) : Outcome PGspec :=
  if conn.prepare_status ≠ PGRES_COMMAND_OK then conn_stop .prepare_failed
  else if conn.described.status ≠ PGRES_COMMAND_OK then conn_stop .describe_failed
  else .returned conn.described

/-- The member function `PqResultSimple::init`. -/
def init (s : PqResultSimple) (params_have_rows : Bool) : PqResultSimple :=
  { s with ready_ := true, nrows_ := 0, complete_ := !params_have_rows }

/-- The member function `PqResultSimple::set_params`. -/
def set_params (s : PqResultSimple) (params : List SEXP) : PqResultSimple :=
  { s with params_ := params }

/-- The loop of `wait_for_data`, one `Poll` for each turn.  When the answers
run out the socket is readable, the input is consumed and the connection is
no longer busy. -/
def wait_loop : List Poll → List Poll × Outcome Unit
  | [] => ([], .returned ())
  | p :: rest =>
    if p.ret = 0 ∧ p.interrupt = true then (rest, .thrown .interrupted)
    else if p.ret < 0 then (rest, .thrown (.select_failed p.sockerr))
    else if p.consume_ok = false then (rest, .thrown .consume_failed)
    else if p.busy = true then wait_loop rest
    else (rest, .returned ())

/-- The member function `PqResultSimple::wait_for_data`. -/
def wait_for_data (s : PqResultSimple) : Ret Unit :=
  if is_check_interrupts s.pConn_ = false then (s, .returned ())
  else if s.pConn_.socket < 0 then (s, .thrown .no_socket)
  else
    let w := wait_loop s.pConn_.polls
    ({ s with pConn_ := { s.pConn_ with polls := w.1 } }, w.2)

/-- The middle of `bind_row`: `finish_query` when a query may be in flight,
the `for` loop that fills the parameter vectors, and the send.  Gives the
connection afterwards and what the send returned. -/
def send_group (s : PqResultSimple) : PGconn × Bool :=
  let c1 := if s.ready_ = true ∨ s.group_ > 0 then finish_query s.pConn_ else s.pConn_
  let row := bind_params s.params_ s.cache.nparams_ s.group_
  if s.cache.nparams_ ≠ 0 then PQsendQuerySimpleared c1 row
  else PQsendQuerySimpleared c1 []

/-- The member function `PqResultSimple::bind_row`. -/
def bind_row (s : PqResultSimple) : Ret Bool :=
  if s.group_ ≥ s.groups_ then (s, .returned false)
  else
    let sent := send_group s
    let s1 := { s with pConn_ := sent.1, data_ready_ := false }
    if sent.2 = false then (s1, conn_stop .send_failed)
    else if PQsetSingleRowMode s1.pConn_ = false then (s1, conn_stop .single_row_failed)
    else (s1, .returned true)

/-- The member function `PqResultSimple::step_done`. -/
def step_done (s : PqResultSimple) : Ret Bool :=
  let tuples := match s.pRes_ with
    | some r => r.cmd_tuples
    | none => ""
  let s1 := { s with rows_affected_ := to_int (s.rows_affected_ + atoi tuples) }
  let s2 := { s1 with group_ := s1.group_ + 1 }
  match bind_row s2 with
  | (s3, .thrown e) => (s3, .thrown e)
  | (s3, .returned more_params) =>
    if more_params = false then ({ s3 with complete_ := true }, .returned false)
    else (s3, .returned true)

/-- The head of `step_run`: the result held before is freed (the member
keeps pointing at it until it is assigned anew), and the data is waited for
unless that has been done since the last send. -/
def step_wait (s : PqResultSimple) : Ret Unit :=
  if s.data_ready_ = false then
    match wait_for_data s with
    | (s1, .thrown e) => (s1, .thrown e)
    | (s1, .returned _) => ({ s1 with data_ready_ := true }, .returned ())
  else (s, .returned ())

/-- The next part of `step_run`: `pRes_ = PQgetResult(pConn_)`, and after
`PGRES_TUPLES_OK` the loop that calls `PQgetResult` until it returns NULL. -/
def step_get (s : PqResultSimple) : PqResultSimple :=
  let got := PQgetResult s.pConn_
  let c2 := if PQresultStatus got.2 = PGRES_TUPLES_OK then drain got.1 else got.1
  { s with pRes_ := got.2, pConn_ := c2 }

/-- The member function `PqResultSimple::step_run`. -/
def step_run (s : PqResultSimple) : Ret Bool :=
  match step_wait s with
  | (s1, .thrown e) => (s1, .thrown e)
  | (s1, .returned _) =>
    let s2 := step_get s1
    match s2.pRes_ with
    | none => (s2, .thrown .no_active_query)
    | some r =>
      match r.status with
      | PGRES_FATAL_ERROR => ({ s2 with pRes_ := none }, conn_stop .fetch_row_failed)
      | PGRES_SINGLE_TUPLE => (s2, .returned false)
      | _ => step_done s2

/-- The loop `while (step_run()) ;` of `step`, at most `fuel` turns. -/
def step_loop : Nat → PqResultSimple → Ret Unit
  | 0, s => (s, .thrown .out_of_fuel)
  | fuel + 1, s =>
    match step_run s with
    | (s1, .thrown e) => (s1, .thrown e)
    | (s1, .returned true) => step_loop fuel s1
    | (s1, .returned false) => (s1, .returned ())

/-- The member function `PqResultSimple::step`.  A turn that asks for another one has sent a
further group, so `groups_ - group_ + 1` turns are enough. -/
def step (s : PqResultSimple) : Ret Unit :=
  step_loop (s.groups_ - s.group_ + 1) s

/-- The member function `PqResultSimple::after_bind`. -/
def after_bind (s : PqResultSimple) (params_have_rows : Bool) : Ret Unit :=
  let s1 := init s params_have_rows
  if params_have_rows = true then step s1 else (s1, .returned ())

/-- The member function `PqResultSimple::bind(const List& params)`. -/
def bind (s : PqResultSimple) (params : List SEXP) : Ret Unit :=
  if params.length ≠ s.cache.nparams_ then
    (s, .thrown (.params_mismatch s.cache.nparams_ params.length))
  else if params.length = 0 ∧ s.ready_ = true then
    (s, .thrown .no_params_required)
  else
    let s1 := set_params s params
    let s2 := { s1 with groups_ := match params with
                                   | first_col :: _ => Rf_length first_col
                                   | [] => 1 }
    let s3 := { s2 with group_ := 0 }
    let s4 := { s3 with rows_affected_ := 0 }
    match bind_row s4 with
    | (s5, .thrown e) => (s5, .thrown e)
    | (s5, .returned has_params) => after_bind s5 has_params

/-- The member function `PqResultSimple::add_oids`. -/
def add_oids (s : PqResultSimple) (data : RList) : RList :=
  { data with
    oids := some s.cache.oids_
    known := some s.cache.known_
    without_tz := some (s.cache.types_.map fun t => decide (t = DT_DATETIME)) }

/-- The member function `PqResultSimple::peek_first_row`. -/
def peek_first_row (s : PqResultSimple) : RList :=
  let data := PqDataFrame.create s.cache.names_ 1 s.cache.types_
  let data1 := if s.complete_ = false then data.set_col_values s.pRes_ else data
  add_oids s data1.get_data

/-- What the connection still holds: the results pending and, for every reply
of the script, its results and its send.  Every turn of the loop of
`fetch_rows` that does not throw uses up some of it. -/
def backlog (c : PGconn) : Nat :=
  c.pending.length + (c.script.map fun r => r.results.length + 1).sum

/-- The loop `while (!complete_) { ... }` of `fetch_rows`, at most `fuel`
turns. -/
def fetch_loop : Nat → PqResultSimple → PqDataFrame → PqResultSimple × PqDataFrame × Outcome Unit
  | 0, s, data =>
    if s.complete_ = true then (s, data, .returned ()) else (s, data, .thrown .out_of_fuel)
  | fuel + 1, s, data =>
    if s.complete_ = true then (s, data, .returned ())
    else
      let data1 := data.set_col_values s.pRes_
      match step s with
      | (s1, .thrown e) => (s1, data1, .thrown e)
      | (s1, .returned _) =>
        let s2 := { s1 with nrows_ := s1.nrows_ + 1 }
        let adv := data1.advance
        if adv.2 = false then (s2, adv.1, .returned ())
        else fetch_loop fuel s2 adv.1

/-- The member function `PqResultSimple::fetch_rows`.  The warning it gives
for a complete statement without columns changes nothing and is left out. -/
def fetch_rows (s : PqResultSimple) (n_max : Int) : Ret RList :=
  let data := PqDataFrame.create s.cache.names_ n_max s.cache.types_
  let looped := fetch_loop (backlog s.pConn_ + 1) s data
  match looped.2.2 with
  | .thrown e => (looped.1, .thrown e)
  | .returned _ => (looped.1, .returned (add_oids looped.1 looped.2.1.get_data))

/-- The member function `PqResultSimple::fetch`. -/
def fetch (s : PqResultSimple) (n_max : Int) : Ret RList :=
  if s.ready_ = false then (s, .thrown .not_bound)
  else if n_max ≠ 0 then fetch_rows s n_max
  else (s, .returned (peek_first_row s))

/-- The list `get_column_info` returns. -/
structure ColumnInfo where
  name : List String
  type : List DATA_TYPE
  oid : List Oid
  known : List Bool
  deriving DecidableEq

/-- The member function `PqResultSimple::get_column_info`: the peeked chunk is dropped. -/
def get_column_info (s : PqResultSimple) : Ret ColumnInfo :=
  let _peeked := peek_first_row s
  (s, .returned { name := s.cache.names_, type := s.cache.types_,
                  oid := s.cache.oids_, known := s.cache.known_ })

/-- The member function `PqResultSimple::n_rows_fetched`. -/
def n_rows_fetched (s : PqResultSimple) : Nat :=
  s.nrows_

/-- The integer R reads as NA (`NA_INTEGER`). -/
def NA_INTEGER : Int := -2147483648

/-- The member function `PqResultSimple::n_rows_affected`. -/
def n_rows_affected (s : PqResultSimple) : Int :=
  if s.ready_ = false then NA_INTEGER
  else if s.cache.ncols_ > 0 then 0
  else s.rows_affected_

/-- The member function `PqResultSimple::complete`. -/
def complete (s : PqResultSimple) : Bool :=
  s.complete_

/-- The members as the initialiser list of the constructor sets them. -/
def initial (conn : PGconn) (spec : PGspec) : PqResultSimple :=
  { pConn_ := conn, cache := Cache.of_spec spec, complete_ := false, ready_ := false,
    data_ready_ := false, nrows_ := 0, rows_affected_ := 0, group_ := 0, groups_ := 0,
    pRes_ := none, params_ := [] }

/-- The constructor `PqResultSimple::PqResultSimple`: a statement without
parameters is bound at once; when that throws there is no object. -/
def create (conn : PGconn) : Outcome PqResultSimple :=
  match prepare conn with
  | .thrown e => .thrown e
  | .returned spec =>
    let s := initial conn spec
    if s.cache.nparams_ = 0 then
      match bind s [] with
      | (_, .thrown e) => .thrown e
      | (s1, .returned _) => .returned s1
    else .returned s

/-! ## Notions used to state and prove the properties -/

/-- The members and connection settings that streaming never writes. -/
structure Frame (s s1 : PqResultSimple) : Prop where
  cache : s1.cache = s.cache
  ready : s1.ready_ = s.ready_
  nrows : s1.nrows_ = s.nrows_
  groups : s1.groups_ = s.groups_
  params : s1.params_ = s.params_
  check : s1.pConn_.check_interrupts = s.pConn_.check_interrupts
  socket : s1.pConn_.socket = s.pConn_.socket

/-- The state of `step_done` when it calls `bind_row`: the count of the
result held is added and the group counter is advanced. -/
def tallied (s : PqResultSimple) : PqResultSimple :=
  { s with
    rows_affected_ := to_int (s.rows_affected_ + atoi (match s.pRes_ with
                                                       | some r => r.cmd_tuples
                                                       | none => ""))
    group_ := s.group_ + 1 }

/-- The connection `bind_row` sends on. -/
def send_conn (s : PqResultSimple) : PGconn :=
  if s.ready_ = true ∨ s.group_ > 0 then finish_query s.pConn_ else s.pConn_

end PqResultSimple

/-- A call of one of the public member functions that change or read the
stream. -/
inductive Call where
  | bind (params : List SEXP)
  | fetch (n_max : Int)
  | get_column_info
  deriving DecidableEq

/-- The state a call leaves. -/
def Call.run (s : PqResultSimple) : Call → PqResultSimple
  | .bind params => (PqResultSimple.bind s params).1
  | .fetch n_max => (PqResultSimple.fetch s n_max).1
  | .get_column_info => (PqResultSimple.get_column_info s).1

/-- Whether a call threw, and what. -/
def Call.error (s : PqResultSimple) : Call → Option Err
  | .bind params => match (PqResultSimple.bind s params).2 with
    | .thrown e => some e
    | .returned _ => none
  | .fetch n_max => match (PqResultSimple.fetch s n_max).2 with
    | .thrown e => some e
    | .returned _ => none
  | .get_column_info => none

/-- The number of groups `bind` derives from a parameter list: the length of
the first column, 1 when there is no column. -/
def group_count (params : List SEXP) : Nat :=
  match params with
  | first_col :: _ => Rf_length first_col
  | [] => 1

/-- The state of `bind` when it calls `bind_row`: parameters stored, group
count derived, group counter and affected-row tally reset. -/
def rebound (s : PqResultSimple) (params : List SEXP) : PqResultSimple :=
  { s with params_ := params, groups_ := group_count params, group_ := 0, rows_affected_ := 0 }

/-! ### Backends that answer group by group -/

/-- What a backend in single-row mode answers for one group: the rows, one
result object each, then one last result object; and what the socket polls
report while the first of them is waited for. -/
structure Group where
  rows : List PGresult
  last : PGresult
  polls : List Poll
  deriving DecidableEq

/-- The reply of the script for such a group: send and single-row mode are
accepted. -/
def Group.reply (g : Group) : Reply :=
  { send_ok := true, single_row_ok := true, polls := g.polls, results := g.rows ++ [g.last] }

/-- The call of `wait_for_data` returns on a connection with these settings and polls. -/
def waits (check : Bool) (socket : Int) (polls : List Poll) : Prop :=
  check = false ∨ (0 ≤ socket ∧ (PqResultSimple.wait_loop polls).2 = .returned ())

/-- The rows of a group carry `PGRES_SINGLE_TUPLE`, its last result does not,
and the wait for it returns. -/
def Group.answers (check : Bool) (socket : Int) (g : Group) : Prop :=
  (∀ r ∈ g.rows, r.status = PGRES_SINGLE_TUPLE) ∧ g.last.status ≠ PGRES_SINGLE_TUPLE
  ∧ waits check socket g.polls

/-- The last result of the group is a terminal status that is not fatal. -/
def Group.ends_well (g : Group) : Prop :=
  g.last.status ≠ PGRES_FATAL_ERROR

instance (check : Bool) (socket : Int) (polls : List Poll) : Decidable (waits check socket polls) := by
  unfold waits
  infer_instance

instance (check : Bool) (socket : Int) (g : Group) : Decidable (g.answers check socket) := by
  unfold Group.answers
  infer_instance

instance (g : Group) : Decidable g.ends_well := by
  unfold Group.ends_well
  infer_instance

/-- The rows of the groups, in group order. -/
def all_rows : List Group → List PGresult
  | [] => []
  | g :: gs => g.rows ++ all_rows gs

/-- The tally of affected rows after the counts of the terminal results of
the groups have been added, one after the other, to the tally `aff`, each
addition in the `int` of the source. -/
def tally_from : Int → List Group → Int
  | aff, [] => aff
  | aff, g :: gs => tally_from (to_int (aff + atoi g.last.cmd_tuples)) gs

/-- The parameter rows of the groups `0 .. k-1`, in that order. -/
def rows_sent (params : List SEXP) (nparams k : Nat) : List (List ParamSlot) :=
  (List.range k).map (bind_params params nparams)

/-- Where `step` comes to rest. -/
inductive Landing where
  | row (nd : Nat) (aff : Int) (r : PGresult) (rows : List PGresult) (t : PGresult)
      (todo : List Group)
  | fatal (nd : Nat) (aff : Int)
  | done (nd : Nat) (aff : Int)

/-- From the point where `nd` groups are finished with tally `aff`, the group
in flight still has `rows` and its last result `t` to deliver and the groups
`todo` are not yet sent: the next row if there is one, else the fatal result
or the end of the last group, whichever comes first. -/
def seek : Nat → Int → List PGresult → PGresult → List Group → Landing
  | nd, aff, r :: rows1, t, todo => .row nd aff r rows1 t todo
  | nd, aff, [], t, [] =>
    if t.status = PGRES_FATAL_ERROR then .fatal nd aff
    else .done (nd + 1) (to_int (aff + atoi t.cmd_tuples))
  | nd, aff, [], t, g :: todo1 =>
    if t.status = PGRES_FATAL_ERROR then .fatal nd aff
    else seek (nd + 1) (to_int (aff + atoi t.cmd_tuples)) g.rows g.last todo1

/-- The constants of one execution: the members and connection settings that
stay as `bind` left them, the log before the first send, the script after the
replies of the groups, how many groups get sent, the final tally, and whether
the last of these groups ends in a fatal result. -/
structure Exec where
  params : List SEXP
  cache : Cache
  groups : Nat
  check : Bool
  socket : Int
  sent0 : List (List ParamSlot)
  rest : List Reply
  upto : Nat
  total : Int
  fatal : Bool

/-- The statement streams: `nd` groups are finished, the group in flight
still has `rows` and `t` pending, the replies for `todo` head the script. -/
structure Streaming (x : Exec) (nd : Nat) (rows : List PGresult) (t : PGresult)
    (todo : List Group) (s : PqResultSimple) : Prop where
  params : s.params_ = x.params
  cache : s.cache = x.cache
  groups : s.groups_ = x.groups
  check : s.pConn_.check_interrupts = x.check
  socket : s.pConn_.socket = x.socket
  ready : s.ready_ = true
  group : s.group_ = nd
  pending : s.pConn_.pending = rows ++ [t]
  script : s.pConn_.script = todo.map Group.reply ++ x.rest
  sent : s.pConn_.sent = x.sent0 ++ rows_sent x.params x.cache.nparams_ (nd + 1)

/-- The results still to come are well formed. -/
def Wellformed (x : Exec) (rows : List PGresult) (t : PGresult) (todo : List Group) : Prop :=
  (∀ r ∈ rows, r.status = PGRES_SINGLE_TUPLE) ∧ t.status ≠ PGRES_SINGLE_TUPLE
  ∧ ∀ g ∈ todo, g.answers x.check x.socket

/-- The state and outcome of `step` at each landing. -/
def Landed (x : Exec) (nrows : Nat) (res : PqResultSimple × Outcome Unit) : Landing → Prop
  | .row nd aff r rows t todo =>
    res.2 = .returned () ∧ Streaming x nd rows t todo res.1 ∧ res.1.pRes_ = some r
    ∧ res.1.rows_affected_ = aff ∧ res.1.complete_ = false ∧ res.1.data_ready_ = true
    ∧ res.1.nrows_ = nrows
  | .fatal nd _ =>
    res.2 = .thrown .fetch_row_failed ∧ res.1.pRes_ = none ∧ res.1.group_ = nd
    ∧ res.1.complete_ = false ∧ res.1.data_ready_ = true ∧ res.1.ready_ = true
    ∧ res.1.pConn_.pending = []
    ∧ res.1.pConn_.sent = x.sent0 ++ rows_sent x.params x.cache.nparams_ (nd + 1)
    ∧ res.1.cache = x.cache ∧ res.1.groups_ = x.groups
  | .done nd aff =>
    res.2 = .returned () ∧ res.1.complete_ = true ∧ res.1.group_ = nd
    ∧ res.1.groups_ = x.groups ∧ res.1.rows_affected_ = aff ∧ res.1.ready_ = true
    ∧ res.1.pConn_.sent = x.sent0 ++ rows_sent x.params x.cache.nparams_ nd
    ∧ res.1.cache = x.cache ∧ res.1.nrows_ = nrows

/-- The state of `step_run` once it has waited and holds what `PQgetResult`
gave it. -/
def received (s : PqResultSimple) (res : Option PGresult) (polls : List Poll)
    (pending : List PGresult) : PqResultSimple :=
  { s with
    data_ready_ := true
    pRes_ := res
    pConn_ := { s.pConn_ with polls := polls, pending := pending } }

/-- The state `bind_row` leaves when it has sent the current group and the
backend answers it with `g`. -/
def group_sent (s : PqResultSimple) (g : Group) (rest : List Reply) : PqResultSimple :=
  { s with
    data_ready_ := false
    pConn_ := { s.pConn_ with
      script := rest
      pending := g.rows ++ [g.last]
      polls := g.polls
      single_row_ok := true
      sent := s.pConn_.sent ++ [bind_params s.params_ s.cache.nparams_ s.group_] } }

/-- How the results still to come end: every last result but the final one
is non-fatal, and the final one is fatal exactly when `fatal` says so. -/
def Closing (fatal : Bool) : PGresult → List Group → Prop
  | t, [] => (t.status = PGRES_FATAL_ERROR ↔ fatal = true)
  | t, g :: todo => t.status ≠ PGRES_FATAL_ERROR ∧ Closing fatal g.last todo

/-- The statement holds the row `r` and the rows `queue` are still to come. -/
def AtRow (x : Exec) (r : PGresult) (queue : List PGresult) (s : PqResultSimple) : Prop :=
  ∃ nd rows t todo,
    Streaming x nd rows t todo s ∧ Wellformed x rows t todo ∧ Closing x.fatal t todo
    ∧ s.pRes_ = some r ∧ s.complete_ = false ∧ s.data_ready_ = true
    ∧ rows ++ all_rows todo = queue ∧ nd + 1 + todo.length = x.upto
    ∧ tally_from (to_int (s.rows_affected_ + atoi t.cmd_tuples)) todo = x.total

/-- The execution has been consumed to its end. -/
def Finished (x : Exec) (s : PqResultSimple) : Prop :=
  s.complete_ = true ∧ s.ready_ = true ∧ s.group_ = x.groups ∧ s.groups_ = x.groups
  ∧ s.rows_affected_ = x.total ∧ s.cache = x.cache
  ∧ s.pConn_.sent = x.sent0 ++ rows_sent x.params x.cache.nparams_ x.groups

/-- The execution has run into the fatal result of its group `upto - 1`. -/
def Broken (x : Exec) (s : PqResultSimple) : Prop :=
  s.complete_ = false ∧ s.ready_ = true ∧ s.data_ready_ = true ∧ s.pRes_ = none
  ∧ s.group_ + 1 = x.upto ∧ s.groups_ = x.groups ∧ s.cache = x.cache
  ∧ s.pConn_.pending = []
  ∧ s.pConn_.sent = x.sent0 ++ rows_sent x.params x.cache.nparams_ x.upto

/-- Where the execution stands when `queue` are the rows not yet held or
pushed: at the first of them, or at its end. -/
def Position (x : Exec) (queue : List PGresult) (s : PqResultSimple) : Prop :=
  match queue with
  | r :: q => AtRow x r q s
  | [] => if x.fatal = true then Broken x s else Finished x s

/-- The constants of an execution fit together: the groups that get sent are
among the groups bound, and they are all of them unless one ends fatally. -/
def Exec.sound (x : Exec) : Prop :=
  x.upto ≤ x.groups ∧ (x.fatal = false → x.upto = x.groups)

/-- The constants of the execution `bind` starts from the state `s` with the
parameters `params`, when the backend answers the groups it will send with
`gs`. -/
def exec_of (s : PqResultSimple) (params : List SEXP) (gs : List Group) (rest : List Reply)
    (fatal : Bool) : Exec :=
  { params := params, cache := s.cache, groups := group_count params,
    check := s.pConn_.check_interrupts, socket := s.pConn_.socket,
    sent0 := s.pConn_.sent, rest := rest, upto := gs.length, total := tally_from 0 gs,
    fatal := fatal }

/-- How the answers `gs` close: none of them ends fatally, or only the last
one does. -/
def closes (fatal : Bool) : List Group → Prop
  | [] => fatal = false
  | g :: gs => Closing fatal g.last gs

/-- The fetches `ns` one after the other, up to the first that throws. -/
def fetches : PqResultSimple → List Int → PqResultSimple × Option Err
  | s, [] => (s, none)
  | s, n :: ns =>
    match PqResultSimple.fetch s n with
    | (s1, .thrown e) => (s1, some e)
    | (s1, .returned _) => fetches s1 ns

/-- A `bind`, then the fetches `ns`, up to the first call that throws. -/
def execute (s : PqResultSimple) (params : List SEXP) (ns : List Int) :
    PqResultSimple × Option Err :=
  match PqResultSimple.bind s params with
  | (s1, .thrown e) => (s1, some e)
  | (s1, .returned _) => fetches s1 ns

/-- The state after the fetches `ns`, each carried out whether or not the one
before threw. -/
def fetch_all (s : PqResultSimple) (ns : List Int) : PqResultSimple :=
  ns.foldl (fun s1 n => (PqResultSimple.fetch s1 n).1) s

/-! ### The parameter encoding as the specification words it -/

/-- One parameter value as the specification sees it: NULL, a text value or a
raw binary payload. -/
inductive ParamValue where
  | null
  | text (str : String)
  | binary (bytes : List Nat)
  deriving DecidableEq

/-- The value of a parameter column for one group: an element of a list
column is a binary payload or NULL, an element of any other column is a text
value or NULL (NA). -/
def spec_value_at (param : SEXP) (group : Nat) : Option ParamValue :=
  match param with
  | .VECSXP elems => (elems.get? group).map fun
    | some bytes => .binary bytes
    | none => .null
  | .STRSXP elems => (elems.get? group).map fun
    | some str => .text str
    | none => .null

/-- The encoding of the specification: a binary payload goes in binary format
with its byte length, a text value in text format, NULL as the absent
marker. -/
def spec_encode : ParamValue → ParamSlot
  | .binary bytes => { value := .raw bytes, format := 1, length := bytes.length }
  | .text str => { value := .chars str, format := 0, length := 0 }
  | .null => { value := .null, format := 0, length := 0 }

/-! ### Sample statements -/

/-- A result object carrying one row. -/
def sample_row (fields : List (Option String)) : PGresult :=
  { status := PGRES_SINGLE_TUPLE, cmd_tuples := "", values := fields }

/-- A terminal result object with a command-completion count. -/
def sample_last (status : ExecStatusType) (count : String) : PGresult :=
  { status := status, cmd_tuples := count, values := [] }

/-- An idle connection that checks interrupts, with a script and the
description of the statement to prepare. -/
def sample_conn (script : List Reply) (fields : List (String × Oid)) (nparams : Nat) : PGconn :=
  { script := script, pending := [], polls := [], single_row_ok := false, sent := [],
    check_interrupts := true, socket := 5, prepare_status := PGRES_COMMAND_OK,
    described := { status := PGRES_COMMAND_OK, fields := fields, nparams := nparams } }

/-- The answer to one group of an `INSERT`: no row, one row affected.  The
socket poll times out once before the data arrives. -/
def insert_group : Group :=
  { rows := [], last := sample_last PGRES_COMMAND_OK "1",
    polls := [{ ret := 0, sockerr := 0, interrupt := false, consume_ok := true, busy := true },
              { ret := 1, sockerr := 0, interrupt := false, consume_ok := true, busy := false }] }

/-- The statement `INSERT INTO t VALUES ($1)` as constructed on a backend
that will answer three groups. -/
def insert_stmt : PqResultSimple :=
  PqResultSimple.initial
    (sample_conn [insert_group.reply, insert_group.reply, insert_group.reply] [] 1)
    { status := PGRES_COMMAND_OK, fields := [], nparams := 1 }

/-- The parameter groups `[["a"],["b"],["c"]]`. -/
def insert_params : List SEXP := [.STRSXP [some "a", some "b", some "c"]]

/-- The answer to `SELECT 1`: one row, then `PGRES_TUPLES_OK`. -/
def select_group : Group :=
  { rows := [sample_row [some "1"]], last := sample_last PGRES_TUPLES_OK "1", polls := [] }

/-- The statement `SELECT 1` before its constructor binds it. -/
def select_stmt : PqResultSimple :=
  PqResultSimple.initial (sample_conn [select_group.reply] [("?column?", 23)] 0)
    { status := PGRES_COMMAND_OK, fields := [("?column?", 23)], nparams := 0 }

/-- The answer to a group that fails: a row, then `PGRES_FATAL_ERROR`. -/
def failing_group : Group :=
  { rows := [sample_row [some "1"]], last := sample_last PGRES_FATAL_ERROR "", polls := [] }

/-- A query with one parameter and one column, on a backend that answers the
first two of three groups and fails on the third. -/
def failing_stmt : PqResultSimple :=
  PqResultSimple.initial
    (sample_conn [select_group.reply, select_group.reply, failing_group.reply]
      [("x", 25)] 1)
    { status := PGRES_COMMAND_OK, fields := [("x", 25)], nparams := 1 }

/-- A statement with two parameters, on a backend that answers one group. -/
def pair_stmt : PqResultSimple :=
  PqResultSimple.initial (sample_conn [insert_group.reply] [] 2)
    { status := PGRES_COMMAND_OK, fields := [], nparams := 2 }

/-- Two parameter columns of different lengths: one value, two values. -/
def uneven_params : List SEXP := [.STRSXP [some "a"], .STRSXP [some "x", some "y"]]

/-- A raw payload and a text value for the same group. -/
def mixed_params : List SEXP := [.VECSXP [some [222, 173]], .STRSXP [some "x"]]

/-- The answer to a group of a command that reports `count` affected rows. -/
def count_group (count : String) : Group :=
  { rows := [], last := sample_last PGRES_COMMAND_OK count, polls := [] }

/-- An `UPDATE` with one parameter, on a backend that reports 2147483647
affected rows for the first group and 1 for the second. -/
def overflow_stmt : PqResultSimple :=
  PqResultSimple.initial
    (sample_conn [(count_group "2147483647").reply, (count_group "1").reply] [] 1)
    { status := PGRES_COMMAND_OK, fields := [], nparams := 1 }

/-- Two parameter groups. -/
def overflow_params : List SEXP := [.STRSXP [some "a", some "b"]]

/-- An `UPDATE` with one parameter, on a backend that reports 2147483648
affected rows for its only group. -/
def huge_stmt : PqResultSimple :=
  PqResultSimple.initial (sample_conn [(count_group "2147483648").reply] [] 1)
    { status := PGRES_COMMAND_OK, fields := [], nparams := 1 }

/-- One parameter group. -/
def huge_params : List SEXP := [.STRSXP [some "a"]]

/-- The statement `SELECT 1/0`: the backend answers with a fatal result. -/
def div_zero_stmt : PqResultSimple :=
  PqResultSimple.initial
    (sample_conn [{ rows := [], last := sample_last PGRES_FATAL_ERROR "", polls := [] : Group }.reply]
      [("?column?", 23)] 0)
    { status := PGRES_COMMAND_OK, fields := [("?column?", 23)], nparams := 0 }

/-- The stream-state invariant of the specification:
`0 ≤ currentGroup ≤ groupCount` (the lower bound holds by type) and
`complete ⇒ currentGroup == groupCount`. -/
def stream_invariant (s : PqResultSimple) : Prop :=
  s.group_ ≤ s.groups_ ∧ (s.complete_ = true → s.group_ = s.groups_)

instance (s : PqResultSimple) : Decidable (stream_invariant s) := by
  unfold stream_invariant
  infer_instance

/-- A bound statement that is not complete has a group in flight. -/
def streams_when_open (s : PqResultSimple) : Prop :=
  s.ready_ = true → s.complete_ = false → s.group_ < s.groups_

/-- The states a statement object can be in: the one its constructor leaves,
and those left by any further call, whatever its outcome. -/
inductive Reachable : PqResultSimple → Prop where
  | created (conn : PGconn) (s : PqResultSimple)
      (h : PqResultSimple.create conn = .returned s) : Reachable s
  | called (s : PqResultSimple) (call : Call) (h : Reachable s) : Reachable (call.run s)

theorem get_column_type_from_oid_table (oid : Oid) :
    get_column_type_from_oid oid = (spec_type_table.lookup oid).getD DT_UNKNOWN := by
  unfold get_column_type_from_oid
  split <;> first | rfl | skip
  rename_i h1 h2 h3 h4 h5 h6 h7 h8 h9 h10 h11 h12 h13 h14 h15 h16 h17 h18 h19 h20 h21 h22 h23 h24
  simp [spec_type_table, List.lookup, beq_false_of_ne h1, beq_false_of_ne h2, beq_false_of_ne h3,
    beq_false_of_ne h4, beq_false_of_ne h5, beq_false_of_ne h6, beq_false_of_ne h7,
    beq_false_of_ne h8, beq_false_of_ne h9, beq_false_of_ne h10, beq_false_of_ne h11,
    beq_false_of_ne h12, beq_false_of_ne h13, beq_false_of_ne h14, beq_false_of_ne h15,
    beq_false_of_ne h16, beq_false_of_ne h17, beq_false_of_ne h18, beq_false_of_ne h19,
    beq_false_of_ne h20, beq_false_of_ne h21, beq_false_of_ne h22, beq_false_of_ne h23,
    beq_false_of_ne h24]

/-! ## The type table -/

theorem lookup_none_of_not_mem {β : Type} (a : Nat) :
    ∀ l : List (Nat × β), (∀ b, (a, b) ∉ l) → l.lookup a = none := by
  intro l
  induction l with
  | nil => simp
  | cons p l ih =>
    intro h
    obtain ⟨k, v⟩ := p
    have hk : a ≠ k := by
      intro e
      exact h v (by simp [e])
    rw [List.lookup_cons]
    have : (a == k) = false := beq_false_of_ne hk
    simp only [this]
    exact ih (fun b hb => h b (List.mem_cons_of_mem _ hb))

theorem spec_resolve_of_mem (oid : Oid) (t : DATA_TYPE) (h : (oid, t) ∈ spec_type_table) :
    spec_resolve oid = (t, true) := by
  simp only [spec_type_table, List.mem_cons, Prod.mk.injEq, List.mem_singleton,
    List.not_mem_nil, or_false] at h
  rcases h with h | h | h | h | h | h | h | h | h | h | h | h | h | h | h | h | h | h | h | h
    | h | h | h | h <;>
    (obtain ⟨rfl, rfl⟩ := h; rfl)

theorem spec_resolve_of_not_mem (oid : Oid) (h : ∀ t, (oid, t) ∉ spec_type_table) :
    spec_resolve oid = (DT_STRING, false) := by
  unfold spec_resolve
  rw [lookup_none_of_not_mem oid _ h]

theorem spec_resolve_never_unknown (oid : Oid) : (spec_resolve oid).1 ≠ DT_UNKNOWN := by
  unfold spec_resolve
  cases h : spec_type_table.lookup oid with
  | none => simp
  | some t =>
    simp only
    intro ht
    subst ht
    have : ∀ l : List (Oid × DATA_TYPE), l.lookup oid = some DT_UNKNOWN →
        ∃ p ∈ l, p.2 = DT_UNKNOWN := by
      intro l
      induction l with
      | nil => simp
      | cons a l ih =>
        intro hl
        rw [List.lookup_cons] at hl
        split at hl
        · exact ⟨a, by simp, by simpa using hl⟩
        · obtain ⟨p, hp, hq⟩ := ih hl
          exact ⟨p, by simp [hp], hq⟩
    obtain ⟨p, hp, hq⟩ := this _ h
    revert hq
    revert p
    decide

theorem resolve_one (oid : Oid) :
    (if get_column_type_from_oid oid = DT_UNKNOWN then DT_STRING else get_column_type_from_oid oid,
      get_column_type_from_oid oid != DT_UNKNOWN) = spec_resolve oid := by
  have hne := spec_resolve_never_unknown oid
  rw [get_column_type_from_oid_table]
  unfold spec_resolve at *
  cases h : spec_type_table.lookup oid with
  | none => simp
  | some t =>
    rw [h] at hne
    simp at hne
    simp [hne]

/-! ## Counts and their decimal rendering -/

theorem digitChar_reads (k : Nat) (hk : k < 10) :
    (Nat.digitChar k).isDigit = true ∧ (Nat.digitChar k).toNat - 48 = k
    ∧ isspace (Nat.digitChar k) = false ∧ Nat.digitChar k ≠ '-' ∧ Nat.digitChar k ≠ '+' := by
  interval_cases k <;> decide

/-- The digits `Nat.toDigitsCore` puts in front of its accumulator read back
as the number. -/
theorem toDigitsCore_reads (fuel : Nat) :
    ∀ (n : Nat) (ds : List Char), n < fuel →
      ∃ k front, k < 10 ∧ Nat.toDigitsCore 10 fuel n ds = Nat.digitChar k :: front ++ ds
        ∧ ∀ rest, atoi_digits (Nat.digitChar k :: front ++ rest) 0 = atoi_digits rest n := by
  induction fuel with
  | zero => intro n ds h; omega
  | succ f ih =>
    intro n ds hn
    have hmod : n % 10 < 10 := Nat.mod_lt _ (by decide)
    obtain ⟨d1, d2, _⟩ := digitChar_reads (n % 10) hmod
    by_cases h0 : n / 10 = 0
    · refine ⟨n % 10, [], hmod, by simp [Nat.toDigitsCore, h0], ?_⟩
      intro rest
      have : n % 10 = n := Nat.mod_eq_of_lt (by omega)
      simp only [List.nil_append, atoi_digits, d1, if_true, d2]
      rw [this]
      simp
    · obtain ⟨k, front, hk, h1, h2⟩ := ih (n / 10) (Nat.digitChar (n % 10) :: ds) (by omega)
      refine ⟨k, front ++ [Nat.digitChar (n % 10)], hk, by simp [Nat.toDigitsCore, h0, h1], ?_⟩
      intro rest
      have := h2 (Nat.digitChar (n % 10) :: rest)
      simp only [List.append_assoc, List.singleton_append, List.cons_append, List.nil_append]
        at this ⊢
      rw [this]
      simp only [atoi_digits, d1, if_true, d2]
      congr 1
      omega

/-- The function `atoi` reads the decimal rendering of a count that fits in
`int` as that count. -/
theorem atoi_toString (c : Nat) (h : c < 2147483648) : atoi (toString c) = (c : Int) := by
  obtain ⟨k, front, hk, h1, h2⟩ := toDigitsCore_reads (c + 1) c [] (by omega)
  obtain ⟨_, _, d3, d4, d5⟩ := digitChar_reads k hk
  have hl : (toString c).toList = Nat.digitChar k :: front := by
    show (Nat.toDigits 10 c) = _
    simpa [Nat.toDigits] using h1
  have hv : atoi_digits (Nat.digitChar k :: front) 0 = c := by
    have := h2 []
    rw [List.append_nil] at this
    rw [this]
    rfl
  have hm : signed_digits (Nat.digitChar k :: front) = (c : Int) := by
    unfold signed_digits
    split
    · rename_i heq
      injection heq with heq
      exact absurd heq d4
    · rename_i heq
      injection heq with heq
      exact absurd heq d5
    · rw [hv]
  have hs : strtol (toString c) = (c : Int) := by
    unfold strtol
    rw [hl]
    simp only [List.dropWhile, d3]
    rw [hm]
    split_ifs <;> omega
  unfold atoi
  rw [hs]
  unfold to_int
  omega

/-- The tally over groups whose terminal results carry the decimal renderings
of `counts` is the sum of the counts, as long as it fits in `int`. -/
theorem tally_from_counts :
    ∀ (gs : List Group) (counts : List Nat) (aff : Int),
      gs.map (fun g => g.last.cmd_tuples) = counts.map toString →
      0 ≤ aff → aff + (counts.sum : Nat) < 2147483648 →
      tally_from aff gs = aff + (counts.sum : Nat) := by
  intro gs
  induction gs with
  | nil =>
    intro counts aff h _ _
    cases counts with
    | nil => simp [tally_from]
    | cons c cs => simp at h
  | cons g gs ih =>
    intro counts aff h h0 hs
    cases counts with
    | nil => simp at h
    | cons c cs =>
      simp only [List.map_cons, List.cons.injEq] at h
      simp only [List.sum_cons, Nat.cast_add] at hs ⊢
      have hc : (c : Int) < 2147483648 := by omega
      have ha : atoi g.last.cmd_tuples = (c : Int) := by
        rw [h.1]
        exact atoi_toString c (by omega)
      have hw : to_int (aff + (c : Int)) = aff + (c : Int) := by
        unfold to_int
        omega
      simp only [tally_from, ha, hw]
      rw [ih cs (aff + (c : Int)) h.2 (by omega) (by omega)]
      omega

namespace PqResultSimple

/-! ## The connection -/

@[simp] theorem drain_results_eq (l : List PGresult) : drain_results l = [] := by
  induction l with
  | nil => rfl
  | cons _ _ ih => simpa [drain_results] using ih

theorem bind_params_zero (params : List SEXP) (group : Nat) : bind_params params 0 group = [] := by
  simp [bind_params]

theorem send_group_eq (s : PqResultSimple) :
    send_group s
      = PQsendQuerySimpleared (send_conn s) (bind_params s.params_ s.cache.nparams_ s.group_) := by
  unfold send_group send_conn
  by_cases hn : s.cache.nparams_ = 0
  · simp [hn, bind_params_zero]
  · simp [hn]

/-- A send that is accepted takes the first reply of the script. -/
theorem send_accepted (c : PGconn) (row : List ParamSlot)
    (h : (PQsendQuerySimpleared c row).2 = true) :
    ∃ r rest, c.script = r :: rest ∧ r.send_ok = true
      ∧ (PQsendQuerySimpleared c row).1
          = { c with script := rest, pending := r.results, polls := r.polls,
                     single_row_ok := r.single_row_ok, sent := c.sent ++ [row] } := by
  unfold PQsendQuerySimpleared at h ⊢
  cases hs : c.script with
  | nil => simp [hs] at h
  | cons r rest =>
    simp only [hs] at h ⊢
    by_cases hr : r.send_ok = true
    · exact ⟨r, rest, rfl, hr, by simp [hr]⟩
    · simp [hr] at h

/-- A send on the first reply of the script, when that reply accepts it. -/
theorem send_on_reply (c : PGconn) (row : List ParamSlot) (r : Reply) (rest : List Reply)
    (hs : c.script = r :: rest) (hr : r.send_ok = true) :
    PQsendQuerySimpleared c row
      = ({ c with script := rest, pending := r.results, polls := r.polls,
                  single_row_ok := r.single_row_ok, sent := c.sent ++ [row] }, true) := by
  unfold PQsendQuerySimpleared
  simp [hs, hr]

theorem send_settings (c : PGconn) (row : List ParamSlot) :
    (PQsendQuerySimpleared c row).1.check_interrupts = c.check_interrupts
    ∧ (PQsendQuerySimpleared c row).1.socket = c.socket
    ∧ (PQsendQuerySimpleared c row).1.sent = c.sent ++ [row] := by
  unfold PQsendQuerySimpleared
  split
  · simp
  · split <;> simp

theorem send_conn_fields (s : PqResultSimple) :
    (send_conn s).script = s.pConn_.script ∧ (send_conn s).sent = s.pConn_.sent
    ∧ (send_conn s).check_interrupts = s.pConn_.check_interrupts
    ∧ (send_conn s).socket = s.pConn_.socket
    ∧ ((s.ready_ = true ∨ s.group_ > 0) → (send_conn s).pending = []) := by
  unfold send_conn
  split
  · simp [finish_query, drain]
  · rename_i h
    simp [h]

theorem send_group_backlog (s : PqResultSimple) (h : (send_group s).2 = true) :
    backlog (send_group s).1 < (s.pConn_.script.map fun r => r.results.length + 1).sum := by
  rw [send_group_eq] at h ⊢
  obtain ⟨r, rest, hs, _, he⟩ := send_accepted _ _ h
  rw [he]
  rw [(send_conn_fields s).1] at hs
  simp [hs, backlog]

/-! ## `bind_row` -/

theorem Frame.refl (s : PqResultSimple) : Frame s s := ⟨rfl, rfl, rfl, rfl, rfl, rfl, rfl⟩

theorem Frame.trans {s s1 s2 : PqResultSimple} (h : Frame s s1) (h1 : Frame s1 s2) : Frame s s2 :=
  ⟨h1.cache.trans h.cache, h1.ready.trans h.ready, h1.nrows.trans h.nrows,
   h1.groups.trans h.groups, h1.params.trans h.params, h1.check.trans h.check,
   h1.socket.trans h.socket⟩

theorem bind_row_state (s : PqResultSimple) :
    (bind_row s).1
      = if s.groups_ ≤ s.group_ then s
        else { s with pConn_ := (send_group s).1, data_ready_ := false } := by
  unfold bind_row
  dsimp only
  split_ifs <;> rfl

theorem bind_row_frame (s : PqResultSimple) : Frame s (bind_row s).1 := by
  rw [bind_row_state]
  split
  · exact Frame.refl s
  · refine ⟨rfl, rfl, rfl, rfl, rfl, ?_, ?_⟩
    · simp only [send_group_eq, (send_settings _ _).1, (send_conn_fields s).2.2.1]
    · simp only [send_group_eq, (send_settings _ _).2.1, (send_conn_fields s).2.2.2.1]

/-- The members `bind_row` leaves alone besides those of `Frame`. -/
theorem bind_row_keeps (s : PqResultSimple) :
    (bind_row s).1.group_ = s.group_ ∧ (bind_row s).1.complete_ = s.complete_
    ∧ (bind_row s).1.rows_affected_ = s.rows_affected_ ∧ (bind_row s).1.pRes_ = s.pRes_ := by
  rw [bind_row_state]
  split <;> simp

theorem bind_row_more (s : PqResultSimple) (h : (bind_row s).2 = .returned true) :
    s.group_ < s.groups_ ∧ (send_group s).2 = true := by
  unfold bind_row at h
  dsimp only at h
  split_ifs at h <;> simp at h
  rename_i h1 h2 h3
  exact ⟨by omega, by simpa using h2⟩

theorem bind_row_no_more (s : PqResultSimple) (h : (bind_row s).2 = .returned false) :
    s.groups_ ≤ s.group_ := by
  unfold bind_row at h
  dsimp only at h
  split_ifs at h <;> first | omega | simp at h

theorem bind_row_thrown (s : PqResultSimple) (e : Err) (h : (bind_row s).2 = .thrown e) :
    s.group_ < s.groups_ ∧ (e = .send_failed ∨ e = .single_row_failed) := by
  unfold bind_row at h
  dsimp only at h
  split_ifs at h <;> simp at h
  · exact ⟨by omega, Or.inl h.symm⟩
  · exact ⟨by omega, Or.inr h.symm⟩

/-! ## `step_run` -/

theorem wait_for_data_state (s : PqResultSimple) :
    ∃ polls, (wait_for_data s).1 = { s with pConn_ := { s.pConn_ with polls := polls } } := by
  unfold wait_for_data
  split_ifs
  · exact ⟨s.pConn_.polls, rfl⟩
  · exact ⟨s.pConn_.polls, rfl⟩
  · exact ⟨_, rfl⟩

theorem step_wait_state (s : PqResultSimple) :
    ∃ polls ready, (step_wait s).1
      = { s with pConn_ := { s.pConn_ with polls := polls }, data_ready_ := ready } := by
  unfold step_wait
  obtain ⟨polls, hp⟩ := wait_for_data_state s
  split_ifs
  · split
    · rename_i s1 e he
      have : s1 = (wait_for_data s).1 := by rw [he]
      exact ⟨polls, s.data_ready_, by rw [this, hp]⟩
    · rename_i s1 e he
      have : s1 = (wait_for_data s).1 := by rw [he]
      exact ⟨polls, true, by rw [this, hp]⟩
  · exact ⟨s.pConn_.polls, s.data_ready_, rfl⟩

theorem step_get_state (s : PqResultSimple) :
    step_get s =
      match s.pConn_.pending with
      | [] => { s with pRes_ := none }
      | r :: rest =>
        { s with pRes_ := some r,
                 pConn_ := { s.pConn_ with
                   pending := if r.status = PGRES_TUPLES_OK then [] else rest } } := by
  unfold step_get PQgetResult
  cases h : s.pConn_.pending with
  | nil => simp [PQresultStatus]
  | cons r rest =>
    simp only [PQresultStatus]
    split_ifs <;> simp [drain]

theorem step_done_eq (s : PqResultSimple) :
    step_done s =
      match (bind_row (tallied s)).2 with
      | .thrown e => ((bind_row (tallied s)).1, .thrown e)
      | .returned true => ((bind_row (tallied s)).1, .returned true)
      | .returned false => ({ (bind_row (tallied s)).1 with complete_ := true }, .returned false) := by
  unfold step_done
  dsimp only
  change (match bind_row (tallied s) with
    | (s3, .thrown e) => (s3, Outcome.thrown e)
    | (s3, .returned more_params) =>
      if more_params = false then ({ s3 with complete_ := true }, Outcome.returned false)
      else (s3, Outcome.returned true)) = _
  rcases h : bind_row (tallied s) with ⟨s3, _ | e⟩
  · rename_i b
    cases b <;> simp
  · simp

theorem tallied_frame (s : PqResultSimple) : Frame s (tallied s) :=
  ⟨rfl, rfl, rfl, rfl, rfl, rfl, rfl⟩

/-- What `step_done` does to the group counter, the flag and the backlog, for
each way it can end. -/
theorem step_done_summary (s : PqResultSimple) :
    Frame s (step_done s).1 ∧ (step_done s).1.group_ = s.group_ + 1
    ∧ ((step_done s).2 = .returned true →
        s.group_ + 1 < s.groups_ ∧ (step_done s).1.complete_ = s.complete_
        ∧ backlog (step_done s).1.pConn_
            < (s.pConn_.script.map fun r => r.results.length + 1).sum)
    ∧ ((step_done s).2 = .returned false →
        s.groups_ ≤ s.group_ + 1 ∧ (step_done s).1.complete_ = true
        ∧ (step_done s).1.pConn_ = s.pConn_)
    ∧ (∀ e, (step_done s).2 = .thrown e →
        s.group_ + 1 < s.groups_ ∧ (step_done s).1.complete_ = s.complete_
        ∧ (e = .send_failed ∨ e = .single_row_failed)) := by
  have hf := (tallied_frame s).trans (bind_row_frame (tallied s))
  have hk := bind_row_keeps (tallied s)
  have hg : (tallied s).group_ = s.group_ + 1 := rfl
  have hgs : (tallied s).groups_ = s.groups_ := rfl
  have hc : (tallied s).complete_ = s.complete_ := rfl
  rw [step_done_eq]
  cases h : (bind_row (tallied s)).2 with
  | thrown e =>
    have ht := bind_row_thrown _ _ h
    refine ⟨hf, by simpa [hg] using hk.1, by simp, by simp, ?_⟩
    intro e1 he1
    simp at he1
    subst he1
    exact ⟨by omega, by simpa [hc] using hk.2.1, ht.2⟩
  | returned b =>
    cases b with
    | true =>
      have hm := bind_row_more _ h
      refine ⟨hf, by simpa [hg] using hk.1, ?_, by simp, by simp⟩
      intro _
      refine ⟨by omega, by simpa [hc] using hk.2.1, ?_⟩
      have hb := send_group_backlog _ hm.2
      have hst : (bind_row (tallied s)).1.pConn_ = (send_group (tallied s)).1 := by
        rw [bind_row_state]
        rw [if_neg (by omega)]
      simp only [hst]
      exact hb
    | false =>
      have hn := bind_row_no_more _ h
      have hst : (bind_row (tallied s)).1 = tallied s := by
        rw [bind_row_state]
        rw [if_pos hn]
      refine ⟨⟨hf.cache, hf.ready, hf.nrows, hf.groups, hf.params, hf.check, hf.socket⟩,
        by simpa [hg] using hk.1, by simp, ?_, by simp⟩
      intro _
      refine ⟨by omega, rfl, ?_⟩
      simp only [hst]
      rfl

theorem wait_loop_fuel (polls : List Poll) : (wait_loop polls).2 ≠ .thrown .out_of_fuel := by
  induction polls with
  | nil => simp [wait_loop]
  | cons p rest ih =>
    unfold wait_loop
    split_ifs <;> first | exact ih | simp

theorem step_wait_fuel (s : PqResultSimple) : (step_wait s).2 ≠ .thrown .out_of_fuel := by
  unfold step_wait
  split_ifs
  · split
    · rename_i s1 e he
      have h2 : (wait_for_data s).2 = .thrown e := by rw [he]
      intro hc
      simp only [Outcome.thrown.injEq] at hc
      subst hc
      unfold wait_for_data at h2
      split_ifs at h2
      · simp at h2
      · exact wait_loop_fuel _ h2
    · simp
  · simp

/-- What one turn of `step_run` does to the group counter, the flag and the
backlog, for each way it can end. -/
theorem step_run_summary (s : PqResultSimple) :
    Frame s (step_run s).1
    ∧ ((step_run s).2 = .returned true →
        (step_run s).1.group_ = s.group_ + 1 ∧ (step_run s).1.group_ < s.groups_
        ∧ (step_run s).1.complete_ = s.complete_)
    ∧ ((step_run s).2 = .returned false →
        ((step_run s).1.group_ = s.group_ ∧ (step_run s).1.complete_ = s.complete_)
        ∨ ((step_run s).1.group_ = s.group_ + 1 ∧ s.groups_ ≤ (step_run s).1.group_
            ∧ (step_run s).1.complete_ = true))
    ∧ (∀ e, (step_run s).2 = .thrown e →
        e ≠ .out_of_fuel ∧ (step_run s).1.complete_ = s.complete_
        ∧ ((step_run s).1.group_ = s.group_
            ∨ ((step_run s).1.group_ = s.group_ + 1 ∧ (step_run s).1.group_ < s.groups_)))
    ∧ (∀ b, (step_run s).2 = .returned b →
        backlog (step_run s).1.pConn_ < backlog s.pConn_) := by
  obtain ⟨polls, ready, hw⟩ := step_wait_state s
  have hfuel := step_wait_fuel s
  unfold step_run
  rcases hsw : step_wait s with ⟨s1, u | e⟩
  · -- the wait returned
    rw [hsw] at hw
    simp only at hw
    have hf1 : Frame s s1 := by rw [hw]; exact ⟨rfl, rfl, rfl, rfl, rfl, rfl, rfl⟩
    have hg1 : s1.group_ = s.group_ := by rw [hw]
    have hc1 : s1.complete_ = s.complete_ := by rw [hw]
    have hp1 : s1.pConn_.pending = s.pConn_.pending := by rw [hw]
    have hs1 : s1.pConn_.script = s.pConn_.script := by rw [hw]
    dsimp only
    rw [step_get_state]
    cases hpend : s1.pConn_.pending with
    | nil =>
      dsimp only
      refine ⟨⟨hf1.cache, hf1.ready, hf1.nrows, hf1.groups, hf1.params, hf1.check, hf1.socket⟩,
        by simp, by simp, ?_, by simp⟩
      intro e he
      simp at he
      subst he
      exact ⟨by simp, hc1, Or.inl hg1⟩
    | cons r rest =>
      dsimp only
      have hbl : backlog { s1.pConn_ with
          pending := if r.status = PGRES_TUPLES_OK then [] else rest } < backlog s.pConn_ := by
        simp only [backlog, hs1, ← hp1, hpend]
        split_ifs <;> simp
      have hsum : ∀ c : PGconn, c.script = s.pConn_.script →
          (c.script.map fun r => r.results.length + 1).sum ≤ backlog s.pConn_ := by
        intro c hc
        rw [hc]
        simp [backlog]
      split
      · -- fatal
        refine ⟨⟨hf1.cache, hf1.ready, hf1.nrows, hf1.groups, hf1.params, hf1.check, hf1.socket⟩,
          by simp, by simp, ?_, by simp⟩
        intro e he
        simp at he
        subst he
        exact ⟨by simp, hc1, Or.inl hg1⟩
      · -- a row
        refine ⟨⟨hf1.cache, hf1.ready, hf1.nrows, hf1.groups, hf1.params, hf1.check, hf1.socket⟩,
          by simp, ?_, by simp, ?_⟩
        · intro _
          exact Or.inl ⟨hg1, hc1⟩
        · intro _ _
          exact hbl
      · -- the end of a group
        have hd := step_done_summary { s1 with pRes_ := some r, pConn_ := { s1.pConn_ with
          pending := if r.status = PGRES_TUPLES_OK then [] else rest } }
        obtain ⟨hdf, hdg, hdt, hdn, hde⟩ := hd
        simp only at hdg hdt hdn hde
        refine ⟨hf1.trans ⟨hdf.cache, hdf.ready, hdf.nrows, hdf.groups, hdf.params, hdf.check,
          hdf.socket⟩, ?_, ?_, ?_, ?_⟩
        · intro h
          obtain ⟨h1, h2, _⟩ := hdt h
          rw [hf1.groups] at h1
          exact ⟨by rw [hdg, hg1], by rw [hdg]; omega, by rw [h2, hc1]⟩
        · intro h
          obtain ⟨h1, h2, _⟩ := hdn h
          rw [hf1.groups] at h1
          exact Or.inr ⟨by rw [hdg, hg1], by rw [hdg]; omega, h2⟩
        · intro e h
          obtain ⟨h1, h2, h3⟩ := hde e h
          rw [hf1.groups] at h1
          refine ⟨?_, by rw [h2, hc1], Or.inr ⟨by rw [hdg, hg1], by rw [hdg]; omega⟩⟩
          rcases h3 with h3 | h3 <;> simp [h3]
        · intro b h
          cases b with
          | true =>
            obtain ⟨_, _, h3⟩ := hdt h
            exact lt_of_lt_of_le h3 (hsum _ hs1)
          | false =>
            obtain ⟨_, _, h3⟩ := hdn h
            rw [h3]
            exact hbl
  · -- the wait threw
    rw [hsw] at hw hfuel
    simp only at hw
    dsimp only
    refine ⟨by rw [hw]; exact ⟨rfl, rfl, rfl, rfl, rfl, rfl, rfl⟩, by simp, by simp, ?_, by simp⟩
    intro e1 he1
    simp at he1
    subst he1
    refine ⟨fun hc => hfuel (by rw [hc]), by rw [hw], Or.inl (by rw [hw])⟩

/-! ## `step` -/

/-- The loop of `step` with enough fuel: it never runs out, it uses up some of
the backlog when it returns, and from a state that streams (not complete,
groups left) it ends in such a state again or returns on completion. -/
theorem step_loop_summary (fuel : Nat) :
    ∀ s : PqResultSimple, s.groups_ - s.group_ < fuel →
      Frame s (step_loop fuel s).1
      ∧ (step_loop fuel s).2 ≠ .thrown .out_of_fuel
      ∧ ((step_loop fuel s).2 = .returned () →
          backlog (step_loop fuel s).1.pConn_ < backlog s.pConn_)
      ∧ (s.complete_ = false → s.group_ < s.groups_ →
          ((step_loop fuel s).1.complete_ = false
              ∧ (step_loop fuel s).1.group_ < (step_loop fuel s).1.groups_)
          ∨ ((step_loop fuel s).2 = .returned ()
              ∧ (step_loop fuel s).1.complete_ = true
              ∧ (step_loop fuel s).1.group_ = (step_loop fuel s).1.groups_)) := by
  induction fuel with
  | zero => intro s h; omega
  | succ n ih =>
    intro s hfuel
    obtain ⟨hf, ht, hn, he, hb⟩ := step_run_summary s
    unfold step_loop
    rcases hrun : step_run s with ⟨s1, b | e⟩
    · rw [hrun] at hf ht hn he hb
      simp only at hf ht hn he hb
      cases b with
      | true =>
        dsimp only
        obtain ⟨h1, h2, h3⟩ := ht rfl
        have hfuel1 : s1.groups_ - s1.group_ < n := by
          rw [hf.groups, h1]; omega
        obtain ⟨i1, i2, i3, i4⟩ := ih s1 hfuel1
        refine ⟨hf.trans i1, i2, ?_, ?_⟩
        · intro h
          exact lt_trans (i3 h) (hb true rfl)
        · intro _ _
          exact i4 (by rw [h3]; assumption) (by rw [hf.groups]; exact h2)
      | false =>
        dsimp only
        refine ⟨hf, by simp, ?_, ?_⟩
        · intro _
          exact hb false rfl
        · intro hc hg
          rcases hn rfl with ⟨h1, h2⟩ | ⟨h1, h2, h3⟩
          · left
            exact ⟨by rw [h2, hc], by rw [h1, hf.groups]; exact hg⟩
          · right
            exact ⟨rfl, h3, by rw [hf.groups]; omega⟩
    · rw [hrun] at hf he
      simp only at hf he
      dsimp only
      obtain ⟨h1, h2, h3⟩ := he e rfl
      refine ⟨hf, ?_, by simp, ?_⟩
      · intro hc
        simp only [Outcome.thrown.injEq] at hc
        exact h1 hc
      · intro hc hg
        left
        refine ⟨by rw [h2, hc], ?_⟩
        rw [hf.groups]
        rcases h3 with h3 | ⟨_, h3⟩
        · rw [h3]; exact hg
        · exact h3

/-- The loop bound of `step` is never reached. -/
theorem step_total (s : PqResultSimple) : (step s).2 ≠ .thrown .out_of_fuel :=
  (step_loop_summary _ s (by omega)).2.1

theorem step_summary (s : PqResultSimple) :
    Frame s (step s).1
    ∧ ((step s).2 = .returned () → backlog (step s).1.pConn_ < backlog s.pConn_)
    ∧ (s.complete_ = false → s.group_ < s.groups_ →
        ((step s).1.complete_ = false ∧ (step s).1.group_ < (step s).1.groups_)
        ∨ ((step s).2 = .returned () ∧ (step s).1.complete_ = true
            ∧ (step s).1.group_ = (step s).1.groups_)) := by
  obtain ⟨h1, _, h3, h4⟩ := step_loop_summary (s.groups_ - s.group_ + 1) s (by omega)
  exact ⟨h1, h3, h4⟩

/-! ## `fetch_rows` -/

theorem fetch_loop_complete (fuel : Nat) (s : PqResultSimple) (d : PqDataFrame)
    (h : s.complete_ = true) : fetch_loop fuel s d = (s, d, .returned ()) := by
  cases fuel <;> simp [fetch_loop, h]

/-- The loop of `fetch_rows` with enough fuel: it never runs out, and a state
that streams or is finished is left streaming or finished. -/
theorem fetch_loop_summary (fuel : Nat) :
    ∀ (s : PqResultSimple) (d : PqDataFrame), backlog s.pConn_ < fuel →
      (s.complete_ = false → s.group_ < s.groups_) →
      (fetch_loop fuel s d).2.2 ≠ .thrown .out_of_fuel
      ∧ (fetch_loop fuel s d).1.cache = s.cache
      ∧ (fetch_loop fuel s d).1.ready_ = s.ready_
      ∧ (fetch_loop fuel s d).1.groups_ = s.groups_
      ∧ (fetch_loop fuel s d).1.params_ = s.params_
      ∧ ((fetch_loop fuel s d).1.complete_ = false →
          (fetch_loop fuel s d).1.group_ < (fetch_loop fuel s d).1.groups_)
      ∧ ((fetch_loop fuel s d).1.complete_ = true → s.complete_ = false →
          (fetch_loop fuel s d).1.group_ = (fetch_loop fuel s d).1.groups_) := by
  induction fuel with
  | zero => intro s d h; omega
  | succ n ih =>
    intro s d hfuel haux
    by_cases hc : s.complete_ = true
    · rw [fetch_loop_complete _ _ _ hc]
      simp [hc]
    · have hc0 : s.complete_ = false := by simpa using hc
      obtain ⟨hf, hb, hi⟩ := step_summary s
      have htot := step_total s
      unfold fetch_loop
      simp only [hc0, Bool.false_eq_true, if_false]
      rcases hstep : step s with ⟨s1, u | e⟩
      · rw [hstep] at hf hb hi
        simp only at hf hb hi
        dsimp only
        have hbl := hb trivial
        have hi1 := hi hc0 (haux hc0)
        split_ifs
        · refine ⟨by simp, hf.cache, hf.ready, hf.groups, hf.params, ?_, ?_⟩
          · intro h1
            rcases hi1 with ⟨_, h3⟩ | ⟨_, h3, _⟩
            · exact h3
            · simp only at h1; rw [h3] at h1; cases h1
          · intro h1 _
            rcases hi1 with ⟨h2, _⟩ | ⟨_, _, h4⟩
            · simp only at h1; rw [h2] at h1; cases h1
            · exact h4
        · have hrec := ih { s1 with nrows_ := s1.nrows_ + 1 }
            (d.set_col_values s.pRes_).advance.1 (by simp only; omega)
            (by
              intro h1
              rcases hi1 with ⟨_, h3⟩ | ⟨_, h3, _⟩
              · exact h3
              · simp only at h1; rw [h3] at h1; cases h1)
          obtain ⟨r1, r2, r3, r4, r5, r6, r7⟩ := hrec
          refine ⟨r1, r2.trans hf.cache, r3.trans hf.ready, r4.trans hf.groups,
            r5.trans hf.params, r6, ?_⟩
          intro h1 _
          by_cases hc1 : s1.complete_ = true
          · rw [fetch_loop_complete _ _ _ (by simpa using hc1)] at h1 ⊢
            rcases hi1 with ⟨h2, _⟩ | ⟨_, _, h4⟩
            · rw [h2] at hc1; cases hc1
            · exact h4
          · exact r7 h1 (by simpa using hc1)
      · rw [hstep] at hf hi htot
        simp only at hf hi htot
        dsimp only
        have hi1 := hi hc0 (haux hc0)
        refine ⟨?_, hf.cache, hf.ready, hf.groups, hf.params, ?_, ?_⟩
        · exact htot
        · intro h1
          rcases hi1 with ⟨_, h3⟩ | ⟨h2, _, _⟩
          · exact h3
          · cases h2
        · intro h1 _
          rcases hi1 with ⟨h2, _⟩ | ⟨h2, _, _⟩
          · rw [h2] at h1; cases h1
          · cases h2

/-! ## `bind` and `fetch` as wholes -/

/-- The function `bind` once its two checks have passed. -/
theorem bind_eq (s : PqResultSimple) (params : List SEXP)
    (h1 : params.length = s.cache.nparams_) (h2 : ¬ (params.length = 0 ∧ s.ready_ = true)) :
    bind s params =
      match (bind_row (rebound s params)).2 with
      | .thrown e => ((bind_row (rebound s params)).1, .thrown e)
      | .returned true => step (init (bind_row (rebound s params)).1 true)
      | .returned false => (init (bind_row (rebound s params)).1 false, .returned ()) := by
  unfold bind
  rw [if_neg (by simpa using h1), if_neg h2]
  dsimp only
  change (match bind_row (rebound s params) with
    | (s5, .thrown e) => (s5, Outcome.thrown e)
    | (s5, .returned has_params) => after_bind s5 has_params) = _
  rcases h : bind_row (rebound s params) with ⟨s5, b | e⟩
  · cases b <;> simp [after_bind]
  · simp

theorem bind_rejected (s : PqResultSimple) (params : List SEXP)
    (h : params.length ≠ s.cache.nparams_ ∨ (params.length = 0 ∧ s.ready_ = true)) :
    (bind s params).1 = s ∧ ∃ e, (bind s params).2 = .thrown e ∧ e.validation = true := by
  unfold bind
  by_cases h1 : params.length ≠ s.cache.nparams_
  · rw [if_pos h1]
    exact ⟨rfl, _, rfl, rfl⟩
  · rw [if_neg h1]
    have h2 : params.length = 0 ∧ s.ready_ = true := by
      rcases h with h | h
      · exact absurd h h1
      · exact h
    rw [if_pos h2]
    exact ⟨rfl, _, rfl, rfl⟩

/-- The state every `fetch` leaves is the one its loop leaves, or the one it
found. -/
theorem fetch_state (s : PqResultSimple) (n_max : Int) :
    (fetch s n_max).1 = s
    ∨ (s.ready_ = true ∧ n_max ≠ 0 ∧ (fetch s n_max).1
        = (fetch_loop (backlog s.pConn_ + 1) s
            (PqDataFrame.create s.cache.names_ n_max s.cache.types_)).1) := by
  unfold fetch
  split_ifs with h1 h2
  · exact Or.inl rfl
  · right
    refine ⟨by simpa using h1, h2, ?_⟩
    unfold fetch_rows
    dsimp only
    split <;> rfl
  · exact Or.inl rfl

/-- The loop bound of `fetch_rows` is never reached by a bound statement that
streams when it is not complete. -/
theorem fetch_total (s : PqResultSimple) (n_max : Int) (h : streams_when_open s) :
    (fetch s n_max).2 ≠ .thrown .out_of_fuel := by
  unfold fetch
  split_ifs with h1 h2
  · simp
  · have hr : s.ready_ = true := by simpa using h1
    have := (fetch_loop_summary (backlog s.pConn_ + 1) s
      (PqDataFrame.create s.cache.names_ n_max s.cache.types_) (by omega) (h hr)).1
    unfold fetch_rows
    dsimp only
    split
    · rename_i e he
      rw [he] at this
      simpa using this
    · simp
  · simp

/-- The loop bound of `step` inside `bind` is never reached. -/
theorem bind_total (s : PqResultSimple) (params : List SEXP) :
    (bind s params).2 ≠ .thrown .out_of_fuel := by
  by_cases h : params.length ≠ s.cache.nparams_ ∨ (params.length = 0 ∧ s.ready_ = true)
  · obtain ⟨_, e, he, hv⟩ := bind_rejected s params h
    rw [he]
    intro hc
    simp only [Outcome.thrown.injEq] at hc
    subst hc
    simp [Err.validation] at hv
  · rw [not_or] at h
    rw [bind_eq s params (by simpa using h.1) h.2]
    cases hb : (bind_row (rebound s params)).2 with
    | thrown e =>
      dsimp only
      have := (bind_row_thrown _ _ hb).2
      rcases this with rfl | rfl <;> simp
    | returned b =>
      cases b with
      | true => exact step_total _
      | false => simp

/-! ## The stream-state invariant -/

/-- The two ways a `bind` that passes its checks can leave the state: with
the first send or the switch to single-row mode failed, or bound. -/
theorem bind_leaves_passed (s : PqResultSimple) (params : List SEXP)
    (h1 : params.length = s.cache.nparams_) (h2 : ¬ (params.length = 0 ∧ s.ready_ = true)) :
    ((bind s params).1.group_ = 0 ∧ 0 < (bind s params).1.groups_
        ∧ (bind s params).1.complete_ = s.complete_ ∧ (bind s params).1.ready_ = s.ready_
        ∧ ((bind s params).2 = .thrown .send_failed
            ∨ (bind s params).2 = .thrown .single_row_failed))
    ∨ ((bind s params).1.ready_ = true
        ∧ (((bind s params).1.complete_ = false
              ∧ (bind s params).1.group_ < (bind s params).1.groups_)
            ∨ ((bind s params).1.complete_ = true
              ∧ (bind s params).1.group_ = (bind s params).1.groups_))) := by
  rw [bind_eq s params h1 h2]
  have hk := bind_row_keeps (rebound s params)
  have hf := bind_row_frame (rebound s params)
  have hg0 : (rebound s params).group_ = 0 := rfl
  have hc0 : (rebound s params).complete_ = s.complete_ := rfl
  have hr0 : (rebound s params).ready_ = s.ready_ := rfl
  cases hb : (bind_row (rebound s params)).2 with
  | thrown e =>
    left
    dsimp only
    obtain ⟨h1, h2⟩ := bind_row_thrown _ _ hb
    refine ⟨by rw [hk.1, hg0], by rw [hf.groups]; omega, by rw [hk.2.1, hc0],
      by rw [hf.ready, hr0], ?_⟩
    rcases h2 with rfl | rfl
    · exact Or.inl rfl
    · exact Or.inr rfl
  | returned b =>
    right
    cases b with
    | true =>
      dsimp only
      obtain ⟨h1, _⟩ := bind_row_more _ hb
      obtain ⟨sf, _, si⟩ := step_summary (init (bind_row (rebound s params)).1 true)
      have hi := si (by simp [init]) (by simp only [init]; rw [hk.1, hf.groups]; exact h1)
      refine ⟨by rw [sf.ready]; rfl, ?_⟩
      rcases hi with hi | ⟨_, hi⟩
      · exact Or.inl hi
      · exact Or.inr hi
    | false =>
      dsimp only
      have h1 := bind_row_no_more _ hb
      refine ⟨rfl, Or.inr ⟨rfl, ?_⟩⟩
      simp only [init]
      rw [hk.1, hf.groups, hg0]
      omega

/-- The three ways `bind` can leave the state: untouched (rejected), with the
first send or the switch to single-row mode failed, or bound. -/
theorem bind_leaves (s : PqResultSimple) (params : List SEXP) :
    (bind s params).1 = s
    ∨ ((bind s params).1.group_ = 0 ∧ 0 < (bind s params).1.groups_
        ∧ (bind s params).1.complete_ = s.complete_ ∧ (bind s params).1.ready_ = s.ready_
        ∧ ((bind s params).2 = .thrown .send_failed
            ∨ (bind s params).2 = .thrown .single_row_failed))
    ∨ ((bind s params).1.ready_ = true
        ∧ (((bind s params).1.complete_ = false
              ∧ (bind s params).1.group_ < (bind s params).1.groups_)
            ∨ ((bind s params).1.complete_ = true
              ∧ (bind s params).1.group_ = (bind s params).1.groups_))) := by
  by_cases h : params.length ≠ s.cache.nparams_ ∨ (params.length = 0 ∧ s.ready_ = true)
  · exact Or.inl (bind_rejected s params h).1
  · right
    rw [not_or] at h
    exact bind_leaves_passed s params (by simpa using h.1) h.2

/-- The two ways `fetch` can leave the state: untouched, or bound and either
streaming, or finished by this call, or complete as it was found. -/
theorem fetch_leaves (s : PqResultSimple) (n_max : Int) (h : streams_when_open s) :
    (fetch s n_max).1 = s
    ∨ ((fetch s n_max).1.ready_ = true
        ∧ (((fetch s n_max).1.complete_ = false
              ∧ (fetch s n_max).1.group_ < (fetch s n_max).1.groups_)
            ∨ ((fetch s n_max).1.complete_ = true
              ∧ (fetch s n_max).1.group_ = (fetch s n_max).1.groups_))) := by
  rcases fetch_state s n_max with h1 | ⟨hr, _, h1⟩
  · exact Or.inl h1
  · by_cases hc : s.complete_ = true
    · left
      rw [h1, fetch_loop_complete _ _ _ hc]
    · right
      have hc0 : s.complete_ = false := by simpa using hc
      obtain ⟨_, _, r3, _, _, r6, r7⟩ := fetch_loop_summary (backlog s.pConn_ + 1) s
        (PqDataFrame.create s.cache.names_ n_max s.cache.types_) (by omega) (h hr)
      rw [h1]
      refine ⟨by rw [r3, hr], ?_⟩
      cases hc1 : (fetch_loop (backlog s.pConn_ + 1) s
        (PqDataFrame.create s.cache.names_ n_max s.cache.types_)).1.complete_ with
      | false => exact Or.inl ⟨rfl, r6 hc1⟩
      | true => exact Or.inr ⟨rfl, r7 hc1 hc0⟩

/-- The constructor leaves the invariant and an open stream. -/
theorem create_invariant (conn : PGconn) (s : PqResultSimple)
    (h : create conn = .returned s) : stream_invariant s ∧ streams_when_open s := by
  unfold create at h
  split at h
  · simp at h
  · rename_i spec _
    dsimp only at h
    split_ifs at h
    · split at h
      · simp at h
      · rename_i s1 u hb
        simp only [Outcome.returned.injEq] at h
        subst h
        have hs : s1 = (bind (initial conn spec) []).1 := by rw [hb]
        have h2 : (bind (initial conn spec) []).2 = .returned u := by rw [hb]
        rcases bind_leaves (initial conn spec) [] with hl | ⟨_, _, _, _, hl⟩ | ⟨hr, hl⟩
        · rw [hs, hl]
          simp [stream_invariant, streams_when_open, initial]
        · rw [h2] at hl
          simp at hl
        · rw [← hs] at hl hr
          rcases hl with ⟨h3, h4⟩ | ⟨h3, h4⟩
          · exact ⟨⟨by omega, by simp [h3]⟩, fun _ _ => h4⟩
          · exact ⟨⟨by omega, fun _ => h4⟩, by simp [streams_when_open, h3]⟩
    · simp only [Outcome.returned.injEq] at h
      subst h
      simp [stream_invariant, streams_when_open, initial]

/-- Every call keeps the group counter within the group count, and keeps a
bound statement that is not complete streaming. -/
theorem call_keeps_range (s : PqResultSimple) (call : Call)
    (h : s.group_ ≤ s.groups_ ∧ streams_when_open s) :
    (call.run s).group_ ≤ (call.run s).groups_ ∧ streams_when_open (call.run s) := by
  cases call with
  | bind params =>
    simp only [Call.run]
    rcases bind_leaves s params with hl | ⟨h1, h2, h3, h4, _⟩ | ⟨_, ⟨h1, h2⟩ | ⟨h1, h2⟩⟩
    · rw [hl]; exact h
    · exact ⟨by omega, fun _ _ => by omega⟩
    · exact ⟨by omega, fun _ _ => h2⟩
    · exact ⟨by omega, by simp [streams_when_open, h1]⟩
  | fetch n_max =>
    simp only [Call.run]
    rcases fetch_leaves s n_max h.2 with hl | ⟨_, ⟨h1, h2⟩ | ⟨h1, h2⟩⟩
    · rw [hl]; exact h
    · exact ⟨by omega, fun _ _ => h2⟩
    · exact ⟨by omega, by simp [streams_when_open, h1]⟩
  | get_column_info => exact h

theorem reachable_range (s : PqResultSimple) (h : Reachable s) :
    s.group_ ≤ s.groups_ ∧ streams_when_open s := by
  induction h with
  | created conn s h => exact ⟨(create_invariant conn s h).1.1, (create_invariant conn s h).2⟩
  | called s call _ ih => exact call_keeps_range s call ih

/-! ## Streaming against a backend that answers group by group -/

/-- The wait at the head of `step_run` returns when the data is ready or the
polls let it. -/
theorem step_wait_ok (s : PqResultSimple)
    (h : s.data_ready_ = true
      ∨ waits s.pConn_.check_interrupts s.pConn_.socket s.pConn_.polls) :
    ∃ polls, step_wait s
      = ({ s with pConn_ := { s.pConn_ with polls := polls }, data_ready_ := true },
         .returned ()) := by
  obtain ⟨⟨script, pending, polls, sr, sent, chk, sock, ps, dsc⟩, cache, cpl, rdy, dr, nrows,
    aff, grp, grps, res, prm⟩ := s
  simp only at h
  unfold step_wait wait_for_data
  cases dr with
  | true => exact ⟨polls, by simp⟩
  | false =>
    cases chk with
    | false => exact ⟨polls, by simp⟩
    | true =>
      have h1 : 0 ≤ sock ∧ (wait_loop polls).2 = .returned () := by
        simpa [waits] using h
      refine ⟨(wait_loop polls).1, ?_⟩
      simp [not_lt.2 h1.1, h1.2]

/-- One turn of `step_run` on a connection that has a result pending. -/
theorem step_run_pending (s : PqResultSimple) (r : PGresult) (rest : List PGresult)
    (hw : s.data_ready_ = true
      ∨ waits s.pConn_.check_interrupts s.pConn_.socket s.pConn_.polls)
    (hp : s.pConn_.pending = r :: rest) :
    ∃ polls, step_run s =
      match r.status with
      | PGRES_FATAL_ERROR => (received s none polls rest, .thrown .fetch_row_failed)
      | PGRES_SINGLE_TUPLE => (received s (some r) polls rest, .returned false)
      | _ =>
        step_done (received s (some r) polls
          (if r.status = PGRES_TUPLES_OK then [] else rest)) := by
  obtain ⟨polls, hwait⟩ := step_wait_ok s hw
  refine ⟨polls, ?_⟩
  unfold step_run
  rw [hwait]
  dsimp only
  rw [step_get_state]
  simp only [hp, received]
  cases hst : r.status <;> simp [hst]

/-- The function `bind_row` when a further group is due and the script accepts it. -/
theorem bind_row_sends (s : PqResultSimple) (g : Group) (rest : List Reply)
    (hg : s.group_ < s.groups_) (hs : s.pConn_.script = g.reply :: rest) :
    bind_row s = (group_sent s g rest, .returned true) := by
  have hsend : send_group s = ((group_sent s g rest).pConn_, true) := by
    rw [send_group_eq]
    have hc := send_conn_fields s
    rw [send_on_reply (send_conn s) _ g.reply rest (by rw [hc.1, hs]) rfl]
    simp only [Group.reply, hc.2.1, hc.2.2.1, hc.2.2.2.1, group_sent]
    unfold send_conn
    split <;> simp [finish_query, drain]
  unfold bind_row
  rw [if_neg (by omega)]
  simp [hsend, PQsetSingleRowMode, group_sent]

theorem step_run_row (s : PqResultSimple) (r : PGresult) (rest : List PGresult)
    (hw : s.data_ready_ = true
      ∨ waits s.pConn_.check_interrupts s.pConn_.socket s.pConn_.polls)
    (hp : s.pConn_.pending = r :: rest) (hr : r.status = PGRES_SINGLE_TUPLE) :
    ∃ polls, step_run s = (received s (some r) polls rest, .returned false) := by
  obtain ⟨polls, h⟩ := step_run_pending s r rest hw hp
  exact ⟨polls, by rw [h]; simp [hr]⟩

theorem step_run_fatal (s : PqResultSimple) (r : PGresult) (rest : List PGresult)
    (hw : s.data_ready_ = true
      ∨ waits s.pConn_.check_interrupts s.pConn_.socket s.pConn_.polls)
    (hp : s.pConn_.pending = r :: rest) (hr : r.status = PGRES_FATAL_ERROR) :
    ∃ polls, step_run s = (received s none polls rest, .thrown .fetch_row_failed) := by
  obtain ⟨polls, h⟩ := step_run_pending s r rest hw hp
  exact ⟨polls, by rw [h]; simp [hr]⟩

theorem step_run_last (s : PqResultSimple) (r : PGresult)
    (hw : s.data_ready_ = true
      ∨ waits s.pConn_.check_interrupts s.pConn_.socket s.pConn_.polls)
    (hp : s.pConn_.pending = [r]) (h1 : r.status ≠ PGRES_SINGLE_TUPLE)
    (h2 : r.status ≠ PGRES_FATAL_ERROR) :
    ∃ polls, step_run s = step_done (received s (some r) polls []) := by
  obtain ⟨polls, h⟩ := step_run_pending s r [] hw hp
  refine ⟨polls, ?_⟩
  rw [h]
  cases hst : r.status <;> simp_all

theorem seek_row (nd : Nat) (aff : Int) (r : PGresult) (rows : List PGresult) (t : PGresult)
    (todo : List Group) : seek nd aff (r :: rows) t todo = .row nd aff r rows t todo := by
  cases todo <;> rfl

theorem seek_fatal (nd : Nat) (aff : Int) (t : PGresult) (todo : List Group)
    (h : t.status = PGRES_FATAL_ERROR) : seek nd aff [] t todo = .fatal nd aff := by
  cases todo <;> simp [seek, h]

/-- A row is pending: `step` takes it and rests. -/
theorem step_loop_row (x : Exec) (todo : List Group) (nd : Nat) (r : PGresult)
    (rows : List PGresult) (t : PGresult) (s : PqResultSimple) (n : Nat)
    (hS : Streaming x nd (r :: rows) t todo s) (hW : Wellformed x (r :: rows) t todo)
    (hc : s.complete_ = false)
    (hw : s.data_ready_ = true ∨ waits x.check x.socket s.pConn_.polls) :
    Landed x s.nrows_ (step_loop (n + 1) s) (seek nd s.rows_affected_ (r :: rows) t todo) := by
  have hw1 : s.data_ready_ = true
      ∨ waits s.pConn_.check_interrupts s.pConn_.socket s.pConn_.polls := by
    rw [hS.check, hS.socket]; exact hw
  obtain ⟨polls, hrun⟩ := step_run_row s r (rows ++ [t]) hw1 (by rw [hS.pending]; rfl)
    (hW.1 r (by simp))
  unfold step_loop
  rw [hrun, seek_row]
  exact ⟨rfl, ⟨hS.params, hS.cache, hS.groups, hS.check, hS.socket, hS.ready, hS.group, rfl,
    hS.script, hS.sent⟩, rfl, rfl, hc, rfl, rfl⟩

/-- The last result of the group in flight is fatal: `step` throws. -/
theorem step_loop_fatal (x : Exec) (todo : List Group) (nd : Nat)
    (t : PGresult) (s : PqResultSimple) (n : Nat)
    (hS : Streaming x nd [] t todo s) (hc : s.complete_ = false)
    (hw : s.data_ready_ = true ∨ waits x.check x.socket s.pConn_.polls)
    (hfat : t.status = PGRES_FATAL_ERROR) :
    Landed x s.nrows_ (step_loop (n + 1) s) (seek nd s.rows_affected_ [] t todo) := by
  have hw1 : s.data_ready_ = true
      ∨ waits s.pConn_.check_interrupts s.pConn_.socket s.pConn_.polls := by
    rw [hS.check, hS.socket]; exact hw
  obtain ⟨polls, hrun⟩ := step_run_fatal s t [] hw1 (by rw [hS.pending]; rfl) hfat
  unfold step_loop
  rw [hrun, seek_fatal _ _ _ _ hfat]
  exact ⟨rfl, rfl, hS.group, hc, rfl, hS.ready, rfl, hS.sent, hS.cache, hS.groups⟩

/-- From a streaming state `step` comes to rest where `seek` says. -/
theorem step_loop_seek (x : Exec) :
    ∀ (todo : List Group) (nd : Nat) (rows : List PGresult) (t : PGresult)
      (s : PqResultSimple) (fuel : Nat),
      Streaming x nd rows t todo s → Wellformed x rows t todo →
      s.complete_ = false →
      (s.data_ready_ = true ∨ waits x.check x.socket s.pConn_.polls) →
      todo.length < fuel →
      nd + 1 + todo.length ≤ x.groups →
      (∀ nd1 aff1, seek nd s.rows_affected_ rows t todo = .done nd1 aff1 → nd1 = x.groups) →
      Landed x s.nrows_ (step_loop fuel s) (seek nd s.rows_affected_ rows t todo) := by
  intro todo
  induction todo with
  | nil =>
    intro nd rows t s fuel hS hW hc hw hfuel hk hd
    obtain ⟨n, rfl⟩ : ∃ n, fuel = n + 1 := ⟨fuel - 1, by omega⟩
    have hw1 : s.data_ready_ = true
        ∨ waits s.pConn_.check_interrupts s.pConn_.socket s.pConn_.polls := by
      rw [hS.check, hS.socket]; exact hw
    cases rows with
    | cons r rows1 => exact step_loop_row x _ nd r rows1 t s n hS hW hc hw
    | nil =>
      by_cases hfat : t.status = PGRES_FATAL_ERROR
      · exact step_loop_fatal x _ nd t s n hS hc hw hfat
      · obtain ⟨polls, hrun⟩ := step_run_last s t hw1 (by rw [hS.pending]; rfl) hW.2.1 hfat
        have hseek : seek nd s.rows_affected_ [] t []
            = .done (nd + 1) (to_int (s.rows_affected_ + atoi t.cmd_tuples)) := by
          simp [seek, hfat]
        have hgr := hd _ _ hseek
        unfold step_loop
        rw [hrun, step_done_eq, hseek]
        have hno : bind_row (tallied (received s (some t) polls []))
            = (tallied (received s (some t) polls []), .returned false) := by
          unfold bind_row
          rw [if_pos]
          simp only [tallied, received, hS.group, hS.groups]
          omega
        rw [hno]
        exact ⟨rfl, rfl, by simp [tallied, received, hS.group], hS.groups, rfl, hS.ready,
          by simpa [rows_sent] using hS.sent, hS.cache, rfl⟩
  | cons g todo1 ih =>
    intro nd rows t s fuel hS hW hc hw hfuel hk hd
    obtain ⟨n, rfl⟩ : ∃ n, fuel = n + 1 := ⟨fuel - 1, by omega⟩
    have hw1 : s.data_ready_ = true
        ∨ waits s.pConn_.check_interrupts s.pConn_.socket s.pConn_.polls := by
      rw [hS.check, hS.socket]; exact hw
    cases rows with
    | cons r rows1 => exact step_loop_row x _ nd r rows1 t s n hS hW hc hw
    | nil =>
      by_cases hfat : t.status = PGRES_FATAL_ERROR
      · exact step_loop_fatal x _ nd t s n hS hc hw hfat
      · obtain ⟨polls, hrun⟩ := step_run_last s t hw1 (by rw [hS.pending]; rfl) hW.2.1 hfat
        have hseek : seek nd s.rows_affected_ [] t (g :: todo1)
            = seek (nd + 1) (to_int (s.rows_affected_ + atoi t.cmd_tuples)) g.rows g.last
                todo1 := by
          simp [seek, hfat]
        simp only [List.length_cons] at hk hfuel
        have hsend := bind_row_sends (tallied (received s (some t) polls [])) g
            (todo1.map Group.reply ++ x.rest)
            (by simp only [tallied, received, hS.group, hS.groups]; omega)
            (by simp only [tallied, received, hS.script]; rfl)
        unfold step_loop
        rw [hrun, step_done_eq, hseek, hsend]
        dsimp only
        have hg := hW.2.2 g (by simp)
        exact ih (nd + 1) g.rows g.last
          (group_sent (tallied (received s (some t) polls [])) g
            (todo1.map Group.reply ++ x.rest)) n
          ⟨hS.params, hS.cache, hS.groups, hS.check, hS.socket, hS.ready,
            by simp [group_sent, tallied, received, hS.group], rfl, rfl, by
              simp only [group_sent, tallied, received, hS.sent, hS.params, hS.cache, hS.group,
                rows_sent]
              rw [List.range_succ (nd + 1)]
              simp⟩
          ⟨hg.1, hg.2.1, fun g1 h1 => hW.2.2 g1 (List.mem_cons_of_mem _ h1)⟩
          hc (Or.inr hg.2.2) (by omega) (by omega)
          (by
            intro nd1 aff1 h1
            apply hd nd1 aff1
            rw [hseek]
            exact h1)

/-- What `seek` finds when the results to come are well formed and close as
`fatal` says: the first row still to come, and otherwise the end. -/
theorem seek_closing (x : Exec) (fatal : Bool) :
    ∀ (todo : List Group) (nd : Nat) (aff : Int) (rows : List PGresult) (t : PGresult),
      Wellformed x rows t todo → Closing fatal t todo →
      match seek nd aff rows t todo with
      | .row nd1 aff1 r rows1 t1 todo1 =>
        Wellformed x rows1 t1 todo1 ∧ Closing fatal t1 todo1
        ∧ rows ++ all_rows todo = r :: (rows1 ++ all_rows todo1)
        ∧ nd1 + todo1.length = nd + todo.length
        ∧ tally_from (to_int (aff1 + atoi t1.cmd_tuples)) todo1
            = tally_from (to_int (aff + atoi t.cmd_tuples)) todo
      | .fatal nd1 _ =>
        fatal = true ∧ nd1 = nd + todo.length ∧ rows ++ all_rows todo = []
      | .done nd1 aff1 =>
        fatal = false ∧ nd1 = nd + 1 + todo.length
        ∧ aff1 = tally_from (to_int (aff + atoi t.cmd_tuples)) todo
        ∧ rows ++ all_rows todo = [] := by
  intro todo
  induction todo with
  | nil =>
    intro nd aff rows t hW hC
    cases rows with
    | cons r rows1 =>
      rw [seek_row]
      exact ⟨⟨fun r1 h1 => hW.1 r1 (List.mem_cons_of_mem _ h1), hW.2.1, hW.2.2⟩, hC, rfl, rfl, rfl⟩
    | nil =>
      simp only [Closing] at hC
      by_cases hfat : t.status = PGRES_FATAL_ERROR
      · rw [seek_fatal _ _ _ _ hfat]
        exact ⟨hC.1 hfat, rfl, rfl⟩
      · simp only [seek, hfat, if_false]
        refine ⟨?_, rfl, rfl, rfl⟩
        cases fatal with
        | false => rfl
        | true => exact absurd (hC.2 rfl) hfat
  | cons g todo1 ih =>
    intro nd aff rows t hW hC
    cases rows with
    | cons r rows1 =>
      rw [seek_row]
      exact ⟨⟨fun r1 h1 => hW.1 r1 (List.mem_cons_of_mem _ h1), hW.2.1, hW.2.2⟩, hC, rfl, rfl, rfl⟩
    | nil =>
      simp only [Closing] at hC
      simp only [seek, hC.1, if_false]
      have hg := hW.2.2 g (by simp)
      have hrec := ih (nd + 1) (to_int (aff + atoi t.cmd_tuples)) g.rows g.last
        ⟨hg.1, hg.2.1, fun g1 h1 => hW.2.2 g1 (List.mem_cons_of_mem _ h1)⟩ hC.2
      revert hrec
      cases seek (nd + 1) (to_int (aff + atoi t.cmd_tuples)) g.rows g.last todo1 with
      | row nd1 aff1 r rows1 t1 todo2 =>
        intro hrec
        obtain ⟨h1, h2, h3, h4, h5⟩ := hrec
        exact ⟨h1, h2, by simpa [all_rows] using h3, by simp only [List.length_cons]; omega, h5⟩
      | fatal nd1 aff1 =>
        intro hrec
        obtain ⟨h1, h2, h3⟩ := hrec
        exact ⟨h1, by simp only [List.length_cons]; omega, by simpa [all_rows] using h3⟩
      | done nd1 aff1 =>
        intro hrec
        obtain ⟨h1, h2, h3, h4⟩ := hrec
        exact ⟨h1, by simp only [List.length_cons]; omega, h3, by simpa [all_rows] using h4⟩

/-- A `step` from a streaming state takes the execution to the position of the
rows still to come; it throws exactly when it runs into the fatal result. -/
theorem step_position (x : Exec) (hx : x.sound) (nd : Nat) (rows : List PGresult)
    (t : PGresult) (todo : List Group) (s : PqResultSimple)
    (hS : Streaming x nd rows t todo s) (hW : Wellformed x rows t todo)
    (hC : Closing x.fatal t todo) (hc : s.complete_ = false)
    (hw : s.data_ready_ = true ∨ waits x.check x.socket s.pConn_.polls)
    (hupto : nd + 1 + todo.length = x.upto)
    (htot : tally_from (to_int (s.rows_affected_ + atoi t.cmd_tuples)) todo = x.total) :
    Position x (rows ++ all_rows todo) (step s).1
    ∧ (x.fatal = true → rows ++ all_rows todo = [] → (step s).2 = .thrown .fetch_row_failed)
    ∧ ((x.fatal = false ∨ rows ++ all_rows todo ≠ []) →
        (step s).2 = .returned () ∧ (step s).1.nrows_ = s.nrows_) := by
  have hcl := seek_closing x x.fatal todo nd s.rows_affected_ rows t hW hC
  have hland := step_loop_seek x todo nd rows t s (s.groups_ - s.group_ + 1) hS hW hc hw
    (by rw [hS.groups, hS.group]; have := hx.1; omega)
    (by have := hx.1; omega)
    (by
      intro nd1 aff1 h1
      rw [h1] at hcl
      have := hx.2 hcl.1
      omega)
  unfold step
  revert hcl hland
  cases seek nd s.rows_affected_ rows t todo with
  | row nd1 aff1 r rows1 t1 todo1 =>
    intro hcl hland
    obtain ⟨c1, c2, c3, c4, c5⟩ := hcl
    obtain ⟨l1, l2, l3, l4, l5, l6, l7⟩ := hland
    rw [c3]
    refine ⟨⟨nd1, rows1, t1, todo1, l2, c1, c2, l3, l5, l6, rfl, by omega, by rw [l4]; omega⟩,
      by simp, fun _ => ⟨l1, l7⟩⟩
  | fatal nd1 aff1 =>
    intro hcl hland
    obtain ⟨c1, c2, c3⟩ := hcl
    obtain ⟨l1, l2, l3, l4, l5, l6, l7, l8, l9, l10⟩ := hland
    rw [c3]
    refine ⟨?_, fun _ _ => l1, ?_⟩
    · simp only [Position, c1, if_true]
      exact ⟨l4, l6, l5, l2, by omega, l10, l9, l7, by rw [l8]; congr 2; omega⟩
    · intro h
      rcases h with h | h
      · rw [c1] at h; cases h
      · exact absurd rfl h
  | done nd1 aff1 =>
    intro hcl hland
    obtain ⟨c1, c2, c3, c4⟩ := hcl
    obtain ⟨l1, l2, l3, l4, l5, l6, l7, l8, l9⟩ := hland
    have hg : nd1 = x.groups := by have := hx.2 c1; omega
    rw [c4]
    refine ⟨?_, ?_, fun _ => ⟨l1, l9⟩⟩
    · simp only [Position, c1, Bool.false_eq_true, if_false]
      exact ⟨l2, l6, by rw [l3, hg], l4, by rw [l5, c3]; omega, l8, by rw [l7, hg]⟩
    · intro h
      rw [c1] at h
      cases h

theorem rows_sent_zero (params : List SEXP) (nparams : Nat) : rows_sent params nparams 0 = [] := rfl

theorem rows_sent_one (params : List SEXP) (nparams : Nat) :
    rows_sent params nparams 1 = [bind_params params nparams 0] := rfl

/-- A `bind` against a backend that answers group by group takes the execution
to the position of all its rows; it throws exactly when it runs into the fatal
result before any row. -/
theorem bind_position (s : PqResultSimple) (params : List SEXP) (gs : List Group)
    (rest : List Reply) (fatal : Bool)
    (h1 : params.length = s.cache.nparams_) (h2 : ¬ (params.length = 0 ∧ s.ready_ = true))
    (hs : s.pConn_.script = gs.map Group.reply ++ rest)
    (hx : (exec_of s params gs rest fatal).sound)
    (ha : ∀ g ∈ gs, g.answers s.pConn_.check_interrupts s.pConn_.socket)
    (hc : closes fatal gs) :
    Position (exec_of s params gs rest fatal) (all_rows gs) (bind s params).1
    ∧ (fatal = true → all_rows gs = [] → (bind s params).2 = .thrown .fetch_row_failed)
    ∧ ((fatal = false ∨ all_rows gs ≠ []) →
        (bind s params).2 = .returned () ∧ (bind s params).1.nrows_ = 0) := by
  rw [bind_eq s params h1 h2]
  cases gs with
  | nil =>
    have hf : fatal = false := hc
    have hg0 : group_count params = 0 := by
      have := hx.2 hf
      simp only [exec_of, List.length_nil] at this
      omega
    have hno : bind_row (rebound s params) = (rebound s params, .returned false) := by
      unfold bind_row
      rw [if_pos]
      simp [rebound, hg0]
    rw [hno]
    dsimp only
    refine ⟨?_, ?_, fun _ => ⟨rfl, rfl⟩⟩
    · simp only [all_rows, Position, exec_of, hf, Bool.false_eq_true, if_false]
      exact ⟨rfl, rfl, by simp [init, rebound, hg0], by simp [init, rebound], rfl, rfl,
        by simp [init, rebound, hg0, rows_sent_zero]⟩
    · intro h
      rw [hf] at h
      cases h
  | cons g0 todo =>
    have hg : 0 < group_count params := by
      have := hx.1
      simp only [exec_of, List.length_cons] at this
      omega
    have hsend := bind_row_sends (rebound s params) g0 (todo.map Group.reply ++ rest)
      (by simpa [rebound] using hg) (by simp only [rebound, hs]; rfl)
    rw [hsend]
    dsimp only
    have hg0 := ha g0 (by simp)
    have hpos := step_position (exec_of s params (g0 :: todo) rest fatal) hx 0 g0.rows g0.last
      todo (init (group_sent (rebound s params) g0 (todo.map Group.reply ++ rest)) true)
      ⟨rfl, rfl, rfl, rfl, rfl, rfl, rfl, rfl, rfl, by
        simp [init, group_sent, rebound, exec_of, rows_sent_one, h1]⟩
      ⟨hg0.1, hg0.2.1, fun g h => ha g (List.mem_cons_of_mem _ h)⟩
      hc rfl (Or.inr hg0.2.2)
      (by simp [exec_of]; omega)
      rfl
    exact hpos

/-! ## `fetch` against a backend that answers group by group -/

/-- Writing a row and accepting it adds it to the rows the collector hands
out. -/
theorem advance_accepts (d : PqDataFrame) (res : Option PGresult) :
    (d.set_col_values res).advance.1.get_data.rows
      = d.get_data.rows ++ [match res with
                            | some r => r.values
                            | none => []]
    ∧ (d.set_col_values res).advance.1.n_max = d.n_max
    ∧ ((d.set_col_values res).advance.2 = false → 0 ≤ d.n_max) := by
  refine ⟨?_, rfl, ?_⟩
  · simp only [PqDataFrame.get_data, PqDataFrame.advance, PqDataFrame.set_col_values]
    apply List.take_of_length_le
    simp only [List.length_append, List.length_take, List.length_singleton]
    omega
  · simp only [PqDataFrame.advance, PqDataFrame.set_col_values, decide_eq_false_iff_not, not_or,
      not_lt]
    intro h
    exact h.1

/-- The position of an execution does not depend on the rows-fetched
counter. -/
theorem Position.with_nrows (x : Exec) (q : List PGresult) (s : PqResultSimple) (n : Nat)
    (h : Position x q s) : Position x q { s with nrows_ := n } := by
  cases q with
  | nil =>
    simp only [Position] at h ⊢
    split_ifs at h ⊢ with hf
    · exact h
    · exact h
  | cons r q =>
    obtain ⟨nd, rows, t, todo, hS, h2⟩ := h
    exact ⟨nd, rows, t, todo, ⟨hS.params, hS.cache, hS.groups, hS.check, hS.socket, hS.ready,
      hS.group, hS.pending, hS.script, hS.sent⟩, h2⟩

/-- The loop of `fetch_rows` from a state that holds a row: it pushes that row
and the next `m` ones and leaves the execution at the position after them; it
throws exactly when it runs into the fatal result; an unbounded collector
takes every row. -/
theorem fetch_loop_position (x : Exec) (hx : x.sound) (fuel : Nat) :
    ∀ (s : PqResultSimple) (d : PqDataFrame) (r : PGresult) (q : List PGresult),
      AtRow x r q s → backlog s.pConn_ < fuel →
      ∃ m, m ≤ q.length ∧ Position x (q.drop m) (fetch_loop fuel s d).1
        ∧ ((x.fatal = true ∧ m = q.length
              ∧ (fetch_loop fuel s d).2.2 = .thrown .fetch_row_failed)
          ∨ ((fetch_loop fuel s d).2.2 = .returned ()
              ∧ (x.fatal = true → m < q.length)
              ∧ (fetch_loop fuel s d).2.1.get_data.rows
                  = d.get_data.rows ++ (r :: q.take m).map PGresult.values
              ∧ (fetch_loop fuel s d).1.nrows_ = s.nrows_ + m + 1))
        ∧ (d.n_max < 0 → m = q.length) := by
  induction fuel with
  | zero => intro s d r q _ h; omega
  | succ n ih =>
    intro s d r q hrow hfuel
    obtain ⟨nd, rows, t, todo, hS, hW, hC, hres, hc, hdr, hq, hupto, htot⟩ := hrow
    obtain ⟨hp, hthrow, hret⟩ := step_position x hx nd rows t todo s hS hW hC hc (Or.inl hdr)
      hupto htot
    rw [hq] at hp hthrow hret
    have hbl := (step_summary s).2.1
    obtain ⟨ha0, ha2, ha3⟩ := advance_accepts d s.pRes_
    have ha1 : (d.set_col_values s.pRes_).advance.1.get_data.rows
        = d.get_data.rows ++ [r.values] := by
      rw [ha0, hres]
    unfold fetch_loop
    simp only [hc, Bool.false_eq_true, if_false]
    by_cases hend : x.fatal = true ∧ q = []
    · -- the fatal result comes next
      have ht := hthrow hend.1 hend.2
      rcases hstep : step s with ⟨s1, u | e⟩
      · rw [hstep] at ht; simp at ht
      · rw [hstep] at ht hp
        simp only [Outcome.thrown.injEq] at ht
        subst ht
        refine ⟨0, by omega, by simpa using hp, Or.inl ⟨hend.1, by simp [hend.2], rfl⟩, ?_⟩
        intro _
        simp [hend.2]
    · have hor : x.fatal = false ∨ q ≠ [] := by
        by_cases hf : x.fatal = true
        · exact Or.inr (fun hq0 => hend ⟨hf, hq0⟩)
        · exact Or.inl (by simpa using hf)
      obtain ⟨hr1, hr2⟩ := hret hor
      rcases hstep : step s with ⟨s1, u | e⟩
      · rw [hstep] at hp hr2 hbl
        simp only at hp hr2 hbl
        have hbl1 := hbl trivial
        dsimp only
        have hp2 := Position.with_nrows x q s1 (s1.nrows_ + 1) hp
        split_ifs with hfull
        · -- the collector is full
          refine ⟨0, by omega, by simpa using hp2, Or.inr ⟨rfl, ?_, ?_, ?_⟩, ?_⟩
          · intro hf
            rcases hor with h | h
            · rw [hf] at h; cases h
            · exact List.length_pos.2 h
          · simpa using ha1
          · simp only [hr2]
          · intro hneg
            have := ha3 hfull
            omega
        · cases q with
          | nil =>
            have hf : x.fatal = false := by
              rcases hor with h | h
              · exact h
              · exact absurd rfl h
            have hfin : Finished x { s1 with nrows_ := s1.nrows_ + 1 } := by
              simpa [Position, hf] using hp2
            rw [fetch_loop_complete _ _ _ hfin.1]
            refine ⟨0, by omega, by simpa using hp2, Or.inr ⟨rfl, ?_, ?_, ?_⟩, fun _ => rfl⟩
            · intro h; rw [hf] at h; cases h
            · simpa using ha1
            · simp only [hr2]
          | cons r1 q1 =>
            obtain ⟨m, hm1, hm2, hm3, hm4⟩ := ih { s1 with nrows_ := s1.nrows_ + 1 }
              (d.set_col_values s.pRes_).advance.1 r1 q1 hp2 (by simp only; omega)
            refine ⟨m + 1, by simp only [List.length_cons]; omega, by simpa using hm2, ?_, ?_⟩
            · rcases hm3 with ⟨f1, f2, f3⟩ | ⟨f1, f2, f3, f4⟩
              · exact Or.inl ⟨f1, by simp only [List.length_cons]; omega, f3⟩
              · refine Or.inr ⟨f1, ?_, ?_, ?_⟩
                · intro hf
                  have := f2 hf
                  simp only [List.length_cons]
                  omega
                · rw [f3, ha1]
                  simp
                · rw [f4]
                  simp only [hr2]
                  omega
            · intro hneg
              have := hm4 (by rw [ha2]; exact hneg)
              simp only [List.length_cons]
              omega
      · rw [hstep] at hr1
        simp at hr1

theorem Position.ready (x : Exec) (q : List PGresult) (s : PqResultSimple)
    (h : Position x q s) : s.ready_ = true ∧ s.cache = x.cache := by
  cases q with
  | nil =>
    simp only [Position] at h
    split_ifs at h
    · exact ⟨h.2.1, h.2.2.2.2.2.2.1⟩
    · exact ⟨h.2.1, h.2.2.2.2.2.1⟩
  | cons r q =>
    obtain ⟨nd, rows, t, todo, hS, _⟩ := h
    exact ⟨hS.ready, hS.cache⟩

theorem Position.complete (x : Exec) (q : List PGresult) (s : PqResultSimple)
    (h : Position x q s) (hc : s.complete_ = true) : q = [] ∧ x.fatal = false := by
  cases q with
  | nil =>
    simp only [Position] at h
    split_ifs at h with hf
    · rw [h.1] at hc; cases hc
    · exact ⟨rfl, by simpa using hf⟩
  | cons r q =>
    obtain ⟨nd, rows, t, todo, _, _, _, _, h5, _⟩ := h
    rw [h5] at hc
    cases hc

/-- A zero-row fetch of a bound statement returns the peeked chunk and leaves
the state as it is. -/
theorem fetch_peek (s : PqResultSimple) (h : s.ready_ = true) :
    fetch s 0 = (s, .returned (peek_first_row s)) := by
  unfold fetch
  simp [h]

/-- A fetch of rows from a held row. -/
theorem fetch_at_row (x : Exec) (hx : x.sound) (s : PqResultSimple) (r : PGresult)
    (q : List PGresult) (n_max : Int) (hn : n_max ≠ 0) (h : AtRow x r q s) :
    ∃ m, m ≤ q.length ∧ Position x (q.drop m) (fetch s n_max).1
      ∧ ((x.fatal = true ∧ m = q.length ∧ (fetch s n_max).2 = .thrown .fetch_row_failed)
        ∨ ((x.fatal = true → m < q.length)
            ∧ (fetch s n_max).1.nrows_ = s.nrows_ + m + 1
            ∧ ∃ chunk, (fetch s n_max).2 = .returned chunk
              ∧ chunk.rows = (r :: q.take m).map PGresult.values))
      ∧ (n_max < 0 → m = q.length) := by
  have hr : s.ready_ = true := (Position.ready x (r :: q) s h).1
  obtain ⟨m, h1, h2, h3, h4⟩ := fetch_loop_position x hx (backlog s.pConn_ + 1) s
    (PqDataFrame.create s.cache.names_ n_max s.cache.types_) r q h (by omega)
  have hst : (fetch s n_max).1 = (fetch_loop (backlog s.pConn_ + 1) s
      (PqDataFrame.create s.cache.names_ n_max s.cache.types_)).1 := by
    rcases fetch_state s n_max with hs | ⟨_, _, hs⟩
    · unfold fetch fetch_rows
      simp only [hr, Bool.true_eq_false, if_false, hn, ne_eq, not_false_eq_true, if_true]
      split <;> rfl
    · exact hs
  refine ⟨m, h1, by rw [hst]; exact h2, ?_, h4⟩
  unfold fetch fetch_rows
  simp only [hr, Bool.true_eq_false, if_false, hn, ne_eq, not_false_eq_true, if_true]
  rcases h3 with ⟨f1, f2, f3⟩ | ⟨f1, f2, f3, f4⟩
  · left
    refine ⟨f1, f2, ?_⟩
    rw [f3]
  · right
    refine ⟨f2, ?_, ?_⟩
    · rw [f1]
      exact f4
    · rw [f1]
      refine ⟨_, rfl, ?_⟩
      simp only [add_oids]
      rw [f3]
      simp [PqDataFrame.get_data, PqDataFrame.create]

/-- A fetch of rows from a complete statement returns an empty chunk and
leaves the state as it is. -/
theorem fetch_complete (s : PqResultSimple) (n_max : Int) (hr : s.ready_ = true)
    (hc : s.complete_ = true) :
    (fetch s n_max).1 = s ∧ ∃ chunk, (fetch s n_max).2 = .returned chunk ∧ chunk.rows = [] := by
  unfold fetch
  by_cases hn : n_max = 0
  · simp [hr, hn, peek_first_row, add_oids, PqDataFrame.get_data, PqDataFrame.create, hc]
  · simp only [hr, Bool.true_eq_false, if_false, hn, ne_eq, not_false_eq_true, if_true]
    unfold fetch_rows
    dsimp only
    rw [fetch_loop_complete _ _ _ hc]
    exact ⟨rfl, _, rfl, by simp [add_oids, PqDataFrame.get_data, PqDataFrame.create]⟩

/-- After the fatal result a fetch of rows finds no query in flight: it throws
and leaves the state as it is. -/
theorem fetch_broken (x : Exec) (s : PqResultSimple) (n_max : Int) (hn : n_max ≠ 0)
    (h : Broken x s) : fetch s n_max = (s, .thrown .no_active_query) := by
  obtain ⟨h1, h2, h3, h4, h5, h6, h7, h8, h9⟩ := h
  have hrun : step_run s = (s, .thrown .no_active_query) := by
    unfold step_run step_wait
    simp only [h3, Bool.true_eq_false, if_false]
    rw [step_get_state]
    simp only [h8]
    obtain ⟨c, cache, cpl, rdy, dr, nrows, aff, grp, grps, res, prm⟩ := s
    simp only at h4
    subst h4
    rfl
  have hstep : step s = (s, .thrown .no_active_query) := by
    unfold step step_loop
    rw [hrun]
  unfold fetch fetch_rows
  simp only [h2, Bool.true_eq_false, if_false, hn, ne_eq, not_false_eq_true, if_true]
  have hloop : ∀ d, fetch_loop (backlog s.pConn_ + 1) s d
      = (s, d.set_col_values s.pRes_, .thrown .no_active_query) := by
    intro d
    unfold fetch_loop
    simp only [h1, Bool.false_eq_true, if_false, hstep]
  rw [hloop]

/-! ## Whole executions -/

theorem closing_of_ends_well (t : PGresult) (todo : List Group)
    (ht : t.status ≠ PGRES_FATAL_ERROR) (h : ∀ g ∈ todo, g.ends_well) :
    Closing false t todo := by
  induction todo generalizing t with
  | nil => simp [Closing, ht]
  | cons g todo ih =>
    exact ⟨ht, ih g.last (h g (by simp)) (fun g1 h1 => h g1 (List.mem_cons_of_mem _ h1))⟩

theorem closes_of_ends_well (gs : List Group) (h : ∀ g ∈ gs, g.ends_well) : closes false gs := by
  cases gs with
  | nil => rfl
  | cons g gs =>
    exact closing_of_ends_well g.last gs (h g (by simp))
      (fun g1 h1 => h g1 (List.mem_cons_of_mem _ h1))

theorem closing_of_fatal_last (t : PGresult) (goods : List Group) (bad : Group)
    (ht : t.status ≠ PGRES_FATAL_ERROR) (h : ∀ g ∈ goods, g.ends_well)
    (hb : bad.last.status = PGRES_FATAL_ERROR) :
    Closing true t (goods ++ [bad]) := by
  induction goods generalizing t with
  | nil => exact ⟨ht, by simp [Closing, hb]⟩
  | cons g goods ih =>
    exact ⟨ht, ih g.last (h g (by simp)) (fun g1 h1 => h g1 (List.mem_cons_of_mem _ h1))⟩

theorem closes_of_fatal_last (goods : List Group) (bad : Group)
    (h : ∀ g ∈ goods, g.ends_well) (hb : bad.last.status = PGRES_FATAL_ERROR) :
    closes true (goods ++ [bad]) := by
  cases goods with
  | nil => simp [closes, Closing, hb]
  | cons g goods =>
    exact closing_of_fatal_last g.last goods bad (h g (by simp))
      (fun g1 h1 => h g1 (List.mem_cons_of_mem _ h1)) hb

/-- When no group ends fatally every fetch returns and leaves the execution at
a position. -/
theorem fetch_keeps_position (x : Exec) (hx : x.sound) (hf : x.fatal = false)
    (s : PqResultSimple) (q : List PGresult) (n_max : Int) (h : Position x q s) :
    (∃ chunk, (fetch s n_max).2 = .returned chunk)
    ∧ ∃ q1, Position x q1 (fetch s n_max).1 := by
  have hr := (Position.ready x q s h).1
  by_cases hn : n_max = 0
  · subst hn
    rw [fetch_peek s hr]
    exact ⟨⟨_, rfl⟩, q, h⟩
  · cases q with
    | nil =>
      have hfin : Finished x s := by simpa [Position, hf] using h
      obtain ⟨h1, chunk, h2, _⟩ := fetch_complete s n_max hr hfin.1
      exact ⟨⟨chunk, h2⟩, [], by rw [h1]; exact h⟩
    | cons r q =>
      obtain ⟨m, _, h2, h3, _⟩ := fetch_at_row x hx s r q n_max hn h
      refine ⟨?_, _, h2⟩
      rcases h3 with ⟨f1, _⟩ | ⟨_, _, chunk, f3, _⟩
      · rw [hf] at f1; cases f1
      · exact ⟨chunk, f3⟩

theorem fetches_keep_position (x : Exec) (hx : x.sound) (hf : x.fatal = false)
    (ns : List Int) :
    ∀ (s : PqResultSimple) (q : List PGresult), Position x q s →
      (fetches s ns).2 = none ∧ ∃ q1, Position x q1 (fetches s ns).1 := by
  induction ns with
  | nil => intro s q h; exact ⟨rfl, q, h⟩
  | cons n ns ih =>
    intro s q h
    obtain ⟨⟨chunk, h1⟩, q1, h2⟩ := fetch_keeps_position x hx hf s q n h
    unfold fetches
    rcases hfe : fetch s n with ⟨s1, c | e⟩
    · rw [hfe] at h2
      exact ih s1 q1 h2
    · rw [hfe] at h1
      simp at h1

/-- When the last group sent ends fatally, a fetch from a held row returns
and holds a row again, or throws on the fatal result. -/
theorem fetch_to_fatal (x : Exec) (hx : x.sound) (hf : x.fatal = true)
    (s : PqResultSimple) (r : PGresult) (q : List PGresult) (n_max : Int)
    (h : AtRow x r q s) :
    ((∃ chunk, (fetch s n_max).2 = .returned chunk)
        ∧ ∃ r1 q1, AtRow x r1 q1 (fetch s n_max).1)
    ∨ ((fetch s n_max).2 = .thrown .fetch_row_failed ∧ Broken x (fetch s n_max).1) := by
  have hr := (Position.ready x (r :: q) s h).1
  by_cases hn : n_max = 0
  · subst hn
    rw [fetch_peek s hr]
    exact Or.inl ⟨⟨_, rfl⟩, r, q, h⟩
  · obtain ⟨m, h1, h2, h3, _⟩ := fetch_at_row x hx s r q n_max hn h
    rcases h3 with ⟨_, f2, f3⟩ | ⟨f1, _, chunk, f3, _⟩
    · right
      refine ⟨f3, ?_⟩
      rw [f2, List.drop_length] at h2
      simpa [Position, hf] using h2
    · left
      refine ⟨⟨chunk, f3⟩, ?_⟩
      have hlt := f1 hf
      cases hq : q.drop m with
      | nil =>
        have := List.drop_eq_nil_iff.1 hq
        omega
      | cons r1 q1 =>
        rw [hq] at h2
        exact ⟨r1, q1, h2⟩

theorem fetch_unbounded_to_fatal (x : Exec) (hx : x.sound) (hf : x.fatal = true)
    (s : PqResultSimple) (r : PGresult) (q : List PGresult) (n_max : Int) (hn : n_max < 0)
    (h : AtRow x r q s) :
    (fetch s n_max).2 = .thrown .fetch_row_failed ∧ Broken x (fetch s n_max).1 := by
  obtain ⟨m, h1, h2, h3, h4⟩ := fetch_at_row x hx s r q n_max (by omega) h
  have hm := h4 hn
  rcases h3 with ⟨_, f2, f3⟩ | ⟨f1, _⟩
  · refine ⟨f3, ?_⟩
    rw [f2, List.drop_length] at h2
    simpa [Position, hf] using h2
  · have := f1 hf
    omega

theorem fetches_to_fatal (x : Exec) (hx : x.sound) (hf : x.fatal = true) (ns : List Int) :
    ∀ (s : PqResultSimple) (r : PGresult) (q : List PGresult), AtRow x r q s →
      ((fetches s ns).2 = none ∧ ∃ r1 q1, AtRow x r1 q1 (fetches s ns).1)
      ∨ ((fetches s ns).2 = some .fetch_row_failed ∧ Broken x (fetches s ns).1) := by
  induction ns with
  | nil => intro s r q h; exact Or.inl ⟨rfl, r, q, h⟩
  | cons n ns ih =>
    intro s r q h
    unfold fetches
    rcases fetch_to_fatal x hx hf s r q n h with ⟨⟨chunk, h1⟩, r1, q1, h2⟩ | ⟨h1, h2⟩
    · rcases hfe : fetch s n with ⟨s1, c | e⟩
      · rw [hfe] at h2
        exact ih s1 r1 q1 h2
      · rw [hfe] at h1
        simp at h1
    · rcases hfe : fetch s n with ⟨s1, c | e⟩
      · rw [hfe] at h1
        simp at h1
      · rw [hfe] at h1 h2
        simp only [Outcome.thrown.injEq] at h1
        subst h1
        exact Or.inr ⟨rfl, h2⟩

theorem fetches_append (ns ms : List Int) :
    ∀ s : PqResultSimple, fetches s (ns ++ ms) =
      match (fetches s ns).2 with
      | some e => ((fetches s ns).1, some e)
      | none => fetches (fetches s ns).1 ms := by
  induction ns with
  | nil => intro s; rfl
  | cons n ns ih =>
    intro s
    simp only [List.cons_append, fetches]
    rcases fetch s n with ⟨s1, c | e⟩
    · exact ih s1
    · rfl

/-- After the fatal result no fetch changes the state. -/
theorem fetch_all_broken (x : Exec) (ms : List Int) :
    ∀ s : PqResultSimple, Broken x s → fetch_all s ms = s := by
  induction ms with
  | nil => intro s _; rfl
  | cons n ms ih =>
    intro s h
    have h1 : (fetch s n).1 = s := by
      by_cases hn : n = 0
      · subst hn
        rw [fetch_peek s h.2.1]
      · rw [fetch_broken x s n hn h]
    simp only [fetch_all, List.foldl_cons]
    rw [h1]
    exact ih s h

theorem wait_loop_validation (polls : List Poll) (e : Err)
    (h : (wait_loop polls).2 = .thrown e) : e.validation = false := by
  induction polls with
  | nil => simp [wait_loop] at h
  | cons p rest ih =>
    unfold wait_loop at h
    split_ifs at h <;> first | exact ih h | (simp at h; subst h; rfl)

theorem step_wait_validation (s : PqResultSimple) (e : Err)
    (h : (step_wait s).2 = .thrown e) : e.validation = false := by
  unfold step_wait at h
  split_ifs at h
  · split at h
    · rename_i s1 e1 he
      have h2 : (wait_for_data s).2 = .thrown e1 := by rw [he]
      simp only [Outcome.thrown.injEq] at h
      subst h
      unfold wait_for_data at h2
      split_ifs at h2
      · simp at h2; subst h2; rfl
      · exact wait_loop_validation _ _ h2
    · simp at h

/-- Nothing `step_run` throws is a validation error. -/
theorem step_run_validation (s : PqResultSimple) (e : Err)
    (h : (step_run s).2 = .thrown e) : e.validation = false := by
  unfold step_run at h
  rcases hsw : step_wait s with ⟨s1, u | e1⟩
  · rw [hsw] at h
    dsimp only at h
    split at h
    · simp at h; subst h; rfl
    · split at h
      · simp at h; subst h; rfl
      · simp at h
      · obtain ⟨_, _, _, _, hde⟩ := step_done_summary (step_get s1)
        rcases (hde e h).2.2 with rfl | rfl <;> rfl
  · have := step_wait_validation s e1 (by rw [hsw])
    rw [hsw] at h
    simp only [Outcome.thrown.injEq] at h
    subst h
    exact this

theorem step_loop_validation (fuel : Nat) :
    ∀ (s : PqResultSimple) (e : Err), (step_loop fuel s).2 = .thrown e →
      e.validation = false := by
  induction fuel with
  | zero =>
    intro s e h
    simp [step_loop] at h
    subst h
    rfl
  | succ n ih =>
    intro s e h
    unfold step_loop at h
    rcases hrun : step_run s with ⟨s1, b | e1⟩
    · rw [hrun] at h
      cases b with
      | true => exact ih s1 e h
      | false => simp at h
    · have := step_run_validation s e1 (by rw [hrun])
      rw [hrun] at h
      simp only [Outcome.thrown.injEq] at h
      subst h
      exact this

/-- A `bind` that passes its checks stores the parameters and derives the
group count from their first column, however it ends. -/
theorem bind_groups (s : PqResultSimple) (params : List SEXP)
    (h1 : params.length = s.cache.nparams_) (h2 : ¬ (params.length = 0 ∧ s.ready_ = true)) :
    (bind s params).1.groups_ = group_count params ∧ (bind s params).1.params_ = params
    ∧ ∀ e, (bind s params).2 = .thrown e → e.validation = false := by
  rw [bind_eq s params h1 h2]
  have hf := bind_row_frame (rebound s params)
  cases hb : (bind_row (rebound s params)).2 with
  | thrown e =>
    dsimp only
    refine ⟨hf.groups, hf.params, ?_⟩
    intro e1 he1
    simp only [Outcome.thrown.injEq] at he1
    subst he1
    rcases (bind_row_thrown _ _ hb).2 with rfl | rfl <;> rfl
  | returned b =>
    cases b with
    | false =>
      dsimp only
      exact ⟨hf.groups, hf.params, by simp⟩
    | true =>
      dsimp only
      obtain ⟨sf, _, _⟩ := step_summary (init (bind_row (rebound s params)).1 true)
      refine ⟨by rw [sf.groups]; exact hf.groups, by rw [sf.params]; exact hf.params, ?_⟩
      intro e he
      exact step_loop_validation _ _ e he

/-! ## The claims -/

/-- C1: resolving backend type ids (`get_column_type_from_oid` followed by the
defaulting of `get_column_types` and `get_column_known`) gives, for every id
that has an entry in the table, the generic type of that entry with
`known = true`, and for every id that has none, `(STRING, false)`; the
functions are total and the resolved type is never `UNKNOWN`. -/
theorem resolve_follows_table (oids : List Oid) (names : List String) :
    get_column_types oids names = oids.map (fun oid => (spec_resolve oid).1)
    ∧ get_column_known oids = oids.map (fun oid => (spec_resolve oid).2)
    ∧ (∀ oid t, (oid, t) ∈ spec_type_table → spec_resolve oid = (t, true))
    ∧ (∀ oid, (∀ t, (oid, t) ∉ spec_type_table) → spec_resolve oid = (DT_STRING, false))
    ∧ (∀ t ∈ get_column_types oids names, t ≠ DT_UNKNOWN) := by
  have h1 : get_column_types oids names = oids.map (fun oid => (spec_resolve oid).1) := by
    unfold get_column_types
    apply List.map_congr_left
    intro oid _
    have := resolve_one oid
    simpa using congrArg Prod.fst this
  have h2 : get_column_known oids = oids.map (fun oid => (spec_resolve oid).2) := by
    unfold get_column_known
    apply List.map_congr_left
    intro oid _
    have := resolve_one oid
    simpa using congrArg Prod.snd this
  refine ⟨h1, h2, spec_resolve_of_mem, spec_resolve_of_not_mem, ?_⟩
  intro t ht
  rw [h1] at ht
  obtain ⟨oid, _, rfl⟩ := List.mem_map.1 ht
  exact spec_resolve_never_unknown oid

/-- C2: when the number of parameter columns differs from the parameter count
of the statement, `bind` throws the validation error whose message cites the
required and the supplied count, and leaves the whole state, the connection
and its log of sends included, as it was. -/
theorem bind_rejects_wrong_count (s : PqResultSimple) (params : List SEXP)
    (h : params.length ≠ s.cache.nparams_) :
    bind s params = (s, .thrown (.params_mismatch s.cache.nparams_ params.length))
    ∧ (Err.params_mismatch s.cache.nparams_ params.length).validation = true
    ∧ (Err.params_mismatch s.cache.nparams_ params.length).what
        = "Query requires " ++ toString s.cache.nparams_ ++ " params; "
          ++ toString params.length ++ " supplied."
    ∧ (bind s params).1.pConn_.sent = s.pConn_.sent := by
  have hb : bind s params = (s, .thrown (.params_mismatch s.cache.nparams_ params.length)) := by
    unfold bind
    rw [if_pos h]
  exact ⟨hb, rfl, rfl, by rw [hb]⟩

/-- Witness of C2: `INSERT INTO t VALUES ($1)` bound with two columns. -/
theorem bind_rejects_wrong_count_witness :
    (bind insert_stmt uneven_params).2 = .thrown (.params_mismatch 1 2)
    ∧ (Err.params_mismatch 1 2).what = "Query requires 1 params; 2 supplied."
    ∧ (bind insert_stmt uneven_params).1.pConn_.sent = [] := by
  have h := bind_rejects_wrong_count insert_stmt uneven_params (by decide)
  exact ⟨by rw [h.1]; rfl, by decide, by rw [h.2.2.2]; rfl⟩

/-- C6: a zero-row fetch of a bound statement returns a chunk without rows
that carries all column names, types, oids and known flags, and leaves the
whole state as it was: group counter, group count, rows fetched, rows
affected, completion flag, held result and the connection (nothing is sent,
no result is retrieved); so also when the statement is complete. -/
theorem peek_changes_nothing (s : PqResultSimple) (h : s.ready_ = true) :
    fetch s 0 = (s, .returned (peek_first_row s))
    ∧ (peek_first_row s).rows = []
    ∧ (peek_first_row s).names = s.cache.names_
    ∧ (peek_first_row s).types = s.cache.types_
    ∧ (peek_first_row s).oids = some s.cache.oids_
    ∧ (peek_first_row s).known = some s.cache.known_
    ∧ (∀ spec, s.cache = Cache.of_spec spec →
        s.cache.names_.length = s.cache.ncols_ ∧ s.cache.types_.length = s.cache.ncols_
        ∧ s.cache.oids_.length = s.cache.ncols_ ∧ s.cache.known_.length = s.cache.ncols_) := by
  refine ⟨fetch_peek s h, ?_, ?_, ?_, ?_, ?_, ?_⟩
  · unfold peek_first_row
    split_ifs <;>
      simp [add_oids, PqDataFrame.get_data, PqDataFrame.create, PqDataFrame.set_col_values]
  · unfold peek_first_row
    split_ifs <;>
      simp [add_oids, PqDataFrame.get_data, PqDataFrame.create, PqDataFrame.set_col_values]
  · unfold peek_first_row
    split_ifs <;>
      simp [add_oids, PqDataFrame.get_data, PqDataFrame.create, PqDataFrame.set_col_values]
  · rfl
  · rfl
  · intro spec hs
    rw [hs]
    simp [Cache.of_spec, get_column_names, get_column_oids, get_column_types, get_column_known]

/-- Witness of C6: `SELECT 1` after its only row has been fetched. -/
theorem peek_changes_nothing_witness :
    (fetch (fetch (bind select_stmt []).1 (-1)).1 0).1 = (fetch (bind select_stmt []).1 (-1)).1
    ∧ (fetch (bind select_stmt []).1 (-1)).1.complete_ = true
    ∧ (peek_first_row (fetch (bind select_stmt []).1 (-1)).1).rows = []
    ∧ (peek_first_row (fetch (bind select_stmt []).1 (-1)).1).names = ["?column?"]
    ∧ (peek_first_row (fetch (bind select_stmt []).1 (-1)).1).oids = some [23]
    ∧ (peek_first_row (fetch (bind select_stmt []).1 (-1)).1).known = some [true] := by
  have h := peek_changes_nothing (fetch (bind select_stmt []).1 (-1)).1 (by decide)
  exact ⟨by rw [h.1], by decide, h.2.1, by rw [h.2.2.1]; decide, by rw [h.2.2.2.2.1]; decide,
    by rw [h.2.2.2.2.2.1]; decide⟩

/-- C9: for every group within the group count and every parameter slot, the
triple `bind_row` passes to the backend for that slot is the encoding of the
value of that column at that group, and of nothing else: a raw payload goes
as (its bytes, format 1, its length), a text value as (its characters, format
0, length 0), NULL as (NULL, 0, 0); slots of one group may mix the formats. -/
theorem bind_row_encodes_by_value (s : PqResultSimple) (h : s.group_ < s.groups_)
    (hp : s.params_.length = s.cache.nparams_) :
    (bind_row s).1.pConn_.sent
        = s.pConn_.sent ++ [bind_params s.params_ s.cache.nparams_ s.group_]
    ∧ (bind_params s.params_ s.cache.nparams_ s.group_).length = s.cache.nparams_
    ∧ (∀ i param v, s.params_.get? i = some param → spec_value_at param s.group_ = some v →
        (bind_params s.params_ s.cache.nparams_ s.group_).get? i = some (spec_encode v))
    ∧ (bind_params mixed_params 2 0).map ParamSlot.format = [1, 0] := by
  refine ⟨?_, by simp [bind_params], ?_, by decide⟩
  · rw [bind_row_state, if_neg (by omega)]
    simp only [send_group_eq, (send_settings _ _).2.2, (send_conn_fields s).2.1]
  · intro i param v hi hv
    have hlt : i < s.cache.nparams_ := by
      rw [← hp]
      exact (List.get?_eq_some.1 hi).1
    simp only [bind_params, List.get?_eq_getElem?, List.getElem?_map,
      List.getElem?_range hlt, Option.map_some']
    rw [List.get?_eq_getElem?] at hi
    rw [hi]
    simp only [Option.some.injEq]
    cases param with
    | VECSXP elems =>
      simp only [spec_value_at, Option.map_eq_some'] at hv
      obtain ⟨a, ha, hv⟩ := hv
      simp only [bind_param, ha]
      cases a <;> simp at hv <;> subst hv <;> rfl
    | STRSXP elems =>
      simp only [spec_value_at, Option.map_eq_some'] at hv
      obtain ⟨a, ha, hv⟩ := hv
      simp only [bind_param, ha]
      cases a <;> simp at hv <;> subst hv <;> rfl

/-- Witness of C9: a raw payload and a text value bound in one group. -/
theorem bind_row_encodes_by_value_witness :
    (bind_row (rebound pair_stmt mixed_params)).1.pConn_.sent
      = [[{ value := .raw [222, 173], format := 1, length := 2 },
          { value := .chars "x", format := 0, length := 0 }]] := by
  have h := bind_row_encodes_by_value (rebound pair_stmt mixed_params) (by decide) (by decide)
  rw [h.1]
  decide

/-- Counterexample to C8: two parameter columns of lengths 1 and 2 are bound
without any error; one group is sent and the second value of the longer
column is dropped. -/
theorem uneven_columns_are_bound :
    uneven_params.map Rf_length = [1, 2]
    ∧ (bind pair_stmt uneven_params).2 = .returned ()
    ∧ (bind pair_stmt uneven_params).1.groups_ = 1
    ∧ (bind pair_stmt uneven_params).1.complete_ = true
    ∧ (bind pair_stmt uneven_params).1.pConn_.sent
        = [[{ value := .chars "a", format := 0, length := 0 },
            { value := .chars "x", format := 0, length := 0 }]] := by
  decide

/-- C8 as amended: a parameter set with as many columns as the statement has
parameters (two or more) passes the checks of `bind` whatever the lengths of
its columns: whatever `bind` throws is not a validation error, and the group
count is the length of the first column alone. -/
theorem bind_ignores_other_lengths (s : PqResultSimple) (params : List SEXP)
    (h : params.length = s.cache.nparams_) (h2 : 2 ≤ s.cache.nparams_) :
    (∀ e, (bind s params).2 = .thrown e → e.validation = false)
    ∧ (bind s params).1.groups_ = group_count params
    ∧ (∀ first others, params = first :: others → (bind s params).1.groups_ = Rf_length first) := by
  obtain ⟨h3, _, h5⟩ := bind_groups s params h (by omega)
  refine ⟨h5, h3, ?_⟩
  intro first others hp
  rw [h3, hp]
  rfl

/-- Witness of the amended C8: the columns of lengths 1 and 2. -/
theorem bind_ignores_other_lengths_witness :
    (∀ e, (bind pair_stmt uneven_params).2 = .thrown e → e.validation = false)
    ∧ (bind pair_stmt uneven_params).1.groups_ = 1 := by
  have h := bind_ignores_other_lengths pair_stmt uneven_params (by decide) (by decide)
  exact ⟨h.1, h.2.1⟩

/-- Counterexample to C3: the first bind of the parameterless statement
`SELECT 1/0`, issued with `ready_ = false`, does not succeed: the backend
answers with a fatal result and the bind throws. -/
theorem first_bind_can_fail :
    div_zero_stmt.cache.nparams_ = 0 ∧ div_zero_stmt.ready_ = false
    ∧ (bind div_zero_stmt []).2 = .thrown .fetch_row_failed
    ∧ create div_zero_stmt.pConn_ = .thrown .fetch_row_failed := by
  decide

/-- C3 as amended: for a statement without parameters, the first bind with an
empty parameter set (`ready_ = false`) sets the group count to 1 and throws no
validation error, whatever the backend does; it succeeds, and readies the
statement, whenever the backend accepts the send and answers with well-formed
results that do not end fatally.  Every bind with an empty parameter set once
the statement is readied throws a validation error and changes nothing. -/
theorem parameterless_bind (s : PqResultSimple) (h : s.cache.nparams_ = 0) :
    (s.ready_ = false →
      (bind s []).1.groups_ = 1
      ∧ (∀ e, (bind s []).2 = .thrown e → e.validation = false)
      ∧ (∀ (g : Group) (rest : List Reply), s.pConn_.script = g.reply :: rest →
          g.answers s.pConn_.check_interrupts s.pConn_.socket → g.ends_well →
          (bind s []).2 = .returned () ∧ (bind s []).1.ready_ = true
          ∧ (bind s []).1.cache.nparams_ = 0))
    ∧ (s.ready_ = true →
        bind s [] = (s, .thrown .no_params_required)
        ∧ Err.no_params_required.validation = true) := by
  constructor
  · intro hr
    have hlen : ([] : List SEXP).length = s.cache.nparams_ := by rw [h]; rfl
    have hnot : ¬ (([] : List SEXP).length = 0 ∧ s.ready_ = true) := by simp [hr]
    obtain ⟨h1, _, h3⟩ := bind_groups s [] hlen hnot
    refine ⟨h1, h3, ?_⟩
    intro g rest hs ha he
    obtain ⟨p1, _, p3⟩ := bind_position s [] [g] rest false hlen hnot (by rw [hs]; rfl)
      ⟨by simp [exec_of, group_count], fun _ => by simp [exec_of, group_count]⟩
      (by intro g1 h1; simp at h1; subst h1; exact ha)
      (by simpa [closes, Closing] using he)
    obtain ⟨r1, r2⟩ := Position.ready _ _ _ p1
    refine ⟨(p3 (Or.inl rfl)).1, r1, ?_⟩
    rw [r2]
    exact h
  · intro hr
    refine ⟨?_, rfl⟩
    unfold bind
    rw [if_neg (by rw [h]; simp), if_pos ⟨rfl, hr⟩]

/-- Witness of the amended C3: `SELECT 1` is bound by its constructor, and a
second bind is rejected. -/
theorem parameterless_bind_witness :
    (bind select_stmt []).2 = .returned () ∧ (bind select_stmt []).1.groups_ = 1
    ∧ (bind (bind select_stmt []).1 []).2 = .thrown .no_params_required := by
  have h := parameterless_bind select_stmt (by decide)
  have h1 := h.1 (by decide)
  have h2 := h1.2.2 select_group [] (by decide) (by decide) (by decide)
  have h3 := (parameterless_bind (bind select_stmt []).1 h2.2.2).2 h2.2.1
  exact ⟨h2.1, h1.1, by rw [h3.1]⟩

/-- Counterexample to C4: a backend reports 2147483647 affected rows for the
first of two groups and 1 for the second; the statement completes, and the
tally and the reported number of affected rows are -2147483648, not the sum
2147483648.  So also for one group that reports 2147483648 rows. -/
theorem tally_leaves_int_range :
    [count_group "2147483647", count_group "1"].map (fun g => g.last.cmd_tuples)
        = [2147483647, 1].map toString
    ∧ (execute overflow_stmt overflow_params []).2 = none
    ∧ (execute overflow_stmt overflow_params []).1.complete_ = true
    ∧ (execute overflow_stmt overflow_params []).1.rows_affected_ = -2147483648
    ∧ n_rows_affected (execute overflow_stmt overflow_params []).1 = -2147483648
    ∧ (count_group "2147483648").last.cmd_tuples = toString 2147483648
    ∧ (execute huge_stmt huge_params []).1.complete_ = true
    ∧ n_rows_affected (execute huge_stmt huge_params []).1 = -2147483648 := by
  decide

/-- C4 as amended: when the backend answers each of the `k` groups of a bind
(a first bind or a re-bind) with well-formed results that end in a non-fatal
terminal status, then whatever fetches follow, no call throws, and once the
statement is complete exactly the `k` groups `0 .. k-1` have been sent, in
that order; when the terminal results carry the counts `c_0 .. c_(k-1)` in
decimal and their sum fits in the `int` of the tally (is below 2^31), the
tally of affected rows is that sum, whatever it was before the bind, and
`n_rows_affected` reports the sum for a statement without result columns and
0 otherwise.  An unbounded fetch always completes the statement, and a
statement whose groups deliver no rows is complete after the bind. -/
theorem rows_affected_is_sum (s : PqResultSimple) (params : List SEXP) (gs : List Group)
    (rest : List Reply) (ns : List Int)
    (h1 : params.length = s.cache.nparams_) (h2 : ¬ (params.length = 0 ∧ s.ready_ = true))
    (hs : s.pConn_.script = gs.map Group.reply ++ rest)
    (hk : gs.length = group_count params)
    (ha : ∀ g ∈ gs, g.answers s.pConn_.check_interrupts s.pConn_.socket ∧ g.ends_well) :
    (execute s params ns).2 = none
    ∧ ((execute s params ns).1.complete_ = true →
        (execute s params ns).1.pConn_.sent
            = s.pConn_.sent ++ rows_sent params s.cache.nparams_ gs.length
        ∧ ∀ counts : List Nat,
            gs.map (fun g => g.last.cmd_tuples) = counts.map toString →
            counts.sum < 2147483648 →
            (execute s params ns).1.rows_affected_ = (counts.sum : Nat)
            ∧ n_rows_affected (execute s params ns).1
                = if s.cache.ncols_ = 0 then ((counts.sum : Nat) : Int) else 0)
    ∧ (fetch (execute s params ns).1 (-1)).1.complete_ = true
    ∧ (all_rows gs = [] → (bind s params).1.complete_ = true) := by
  have hx : (exec_of s params gs rest false).sound :=
    ⟨by simp [exec_of, hk], fun _ => by simp [exec_of, hk]⟩
  obtain ⟨p1, _, p3⟩ := bind_position s params gs rest false h1 h2 hs hx
    (fun g hg => (ha g hg).1) (closes_of_ends_well gs (fun g hg => (ha g hg).2))
  obtain ⟨b1, _⟩ := p3 (Or.inl rfl)
  have hex : execute s params ns = fetches (bind s params).1 ns := by
    unfold execute
    rcases hb : bind s params with ⟨s1, u | e⟩
    · rfl
    · rw [hb] at b1; simp at b1
  obtain ⟨f1, q1, f2⟩ := fetches_keep_position _ hx rfl ns _ _ p1
  rw [hex]
  have hfin : ∀ s2, Position (exec_of s params gs rest false) [] s2 →
      Finished (exec_of s params gs rest false) s2 := by
    intro s2 h
    simpa [Position, exec_of] using h
  refine ⟨f1, ?_, ?_, ?_⟩
  · intro hc
    obtain ⟨hq, _⟩ := Position.complete _ _ _ f2 hc
    subst hq
    obtain ⟨_, g2, g3, g4, g5, g6, g7⟩ := hfin _ f2
    refine ⟨by rw [g7]; simp [exec_of, hk], ?_⟩
    intro counts hcounts hsum
    have htal : tally_from 0 gs = ((counts.sum : Nat) : Int) := by
      rw [tally_from_counts gs counts 0 hcounts (le_refl 0) (by omega)]
      omega
    refine ⟨by rw [g5]; exact htal, ?_⟩
    unfold n_rows_affected
    rw [g2, g6, g5]
    simp only [exec_of, Bool.true_eq_false, if_false]
    by_cases hn : s.cache.ncols_ = 0
    · simp [hn, htal]
    · simp [hn, Nat.pos_of_ne_zero hn]
  · cases q1 with
    | nil =>
      have hf := hfin _ f2
      rw [(fetch_complete _ (-1) hf.2.1 hf.1).1]
      exact hf.1
    | cons r q =>
      obtain ⟨m, _, m2, _, m4⟩ := fetch_at_row _ hx _ r q (-1) (by decide) f2
      rw [m4 (by decide), List.drop_length] at m2
      exact (hfin _ m2).1
  · intro hq
    rw [hq] at p1
    exact (hfin _ p1).1

/-- Witness of the amended C4: `INSERT INTO t VALUES ($1)` bound with the
three groups `a`, `b`, `c`, each reporting one row: three sends, and three
rows affected in all. -/
theorem rows_affected_is_sum_witness :
    (execute insert_stmt insert_params []).2 = none
    ∧ (execute insert_stmt insert_params []).1.complete_ = true
    ∧ (execute insert_stmt insert_params []).1.pConn_.sent
        = [[{ value := .chars "a", format := 0, length := 0 }],
           [{ value := .chars "b", format := 0, length := 0 }],
           [{ value := .chars "c", format := 0, length := 0 }]]
    ∧ (execute insert_stmt insert_params []).1.rows_affected_ = 3
    ∧ n_rows_affected (execute insert_stmt insert_params []).1 = 3 := by
  have h := rows_affected_is_sum insert_stmt insert_params
    [insert_group, insert_group, insert_group] [] [] (by decide) (by decide) (by decide)
    (by decide) (by decide)
  have hc : (execute insert_stmt insert_params []).1.complete_ = true := h.2.2.2 (by decide)
  obtain ⟨h3, h4⟩ := h.2.1 hc
  obtain ⟨h5, h6⟩ := h4 [1, 1, 1] (by decide) (by decide)
  exact ⟨h.1, hc, by rw [h3]; decide, by rw [h5]; decide, by rw [h6]; decide⟩

/-- C5: when the backend answers each group of a bind with its rows followed
by a non-fatal terminal status, the bind returns with the rows-fetched counter
at 0, and an unbounded fetch after it returns a chunk with exactly the rows of
all groups, in backend order within a group and in group order, counts each of
them once, and leaves the statement complete; for a statement with result
columns the reported number of affected rows is then 0. -/
theorem unbounded_fetch_takes_all_rows (s : PqResultSimple) (params : List SEXP)
    (gs : List Group) (rest : List Reply) (n_max : Int)
    (h1 : params.length = s.cache.nparams_) (h2 : ¬ (params.length = 0 ∧ s.ready_ = true))
    (hs : s.pConn_.script = gs.map Group.reply ++ rest)
    (hk : gs.length = group_count params)
    (ha : ∀ g ∈ gs, g.answers s.pConn_.check_interrupts s.pConn_.socket ∧ g.ends_well)
    (hn : n_max < 0) :
    (bind s params).2 = .returned () ∧ (bind s params).1.nrows_ = 0
    ∧ (∃ chunk, (fetch (bind s params).1 n_max).2 = .returned chunk
        ∧ chunk.rows = (all_rows gs).map PGresult.values)
    ∧ (fetch (bind s params).1 n_max).1.nrows_ = (all_rows gs).length
    ∧ (fetch (bind s params).1 n_max).1.complete_ = true
    ∧ (0 < s.cache.ncols_ → n_rows_affected (fetch (bind s params).1 n_max).1 = 0) := by
  have hx : (exec_of s params gs rest false).sound :=
    ⟨by simp [exec_of, hk], fun _ => by simp [exec_of, hk]⟩
  obtain ⟨p1, _, p3⟩ := bind_position s params gs rest false h1 h2 hs hx
    (fun g hg => (ha g hg).1) (closes_of_ends_well gs (fun g hg => (ha g hg).2))
  obtain ⟨b1, b2⟩ := p3 (Or.inl rfl)
  have hfin : ∀ s2, Position (exec_of s params gs rest false) [] s2 →
      Finished (exec_of s params gs rest false) s2 := by
    intro s2 h
    simpa [Position, exec_of] using h
  have haff : ∀ s2, Finished (exec_of s params gs rest false) s2 → 0 < s.cache.ncols_ →
      n_rows_affected s2 = 0 := by
    intro s2 hf hc
    unfold n_rows_affected
    rw [hf.2.1, hf.2.2.2.2.2.1]
    simp [exec_of, hc]
  refine ⟨b1, b2, ?_⟩
  cases hq : all_rows gs with
  | nil =>
    rw [hq] at p1
    have hf := hfin _ p1
    obtain ⟨c1, chunk, c2, c3⟩ := fetch_complete _ n_max hf.2.1 hf.1
    rw [c1]
    exact ⟨⟨chunk, c2, by rw [c3]; rfl⟩, by rw [b2]; rfl, hf.1, haff _ hf⟩
  | cons r q =>
    rw [hq] at p1
    obtain ⟨m, _, m2, m3, m4⟩ := fetch_at_row _ hx _ r q n_max (by omega) p1
    have hm := m4 hn
    rw [hm, List.drop_length] at m2
    have hf := hfin _ m2
    rcases m3 with ⟨f1, _⟩ | ⟨_, f2, chunk, f3, f4⟩
    · simp [exec_of] at f1
    · refine ⟨⟨chunk, f3, ?_⟩, ?_, hf.1, haff _ hf⟩
      · rw [f4, hm, List.take_length]
      · rw [f2, b2, hm]
        simp only [List.length_cons]
        omega

/-- Witness of C5: `SELECT 1` yields exactly one row `[1]`, is complete, and
reports 0 rows affected. -/
theorem unbounded_fetch_takes_all_rows_witness :
    (∃ chunk, (fetch (bind select_stmt []).1 (-1)).2 = .returned chunk
      ∧ chunk.rows = [[some "1"]])
    ∧ (fetch (bind select_stmt []).1 (-1)).1.nrows_ = 1
    ∧ (fetch (bind select_stmt []).1 (-1)).1.complete_ = true
    ∧ n_rows_affected (fetch (bind select_stmt []).1 (-1)).1 = 0 := by
  have h := unbounded_fetch_takes_all_rows select_stmt [] [select_group] [] (-1)
    (by decide) (by decide) (by decide) (by decide) (by decide) (by decide)
  exact ⟨h.2.2.1, h.2.2.2.1, h.2.2.2.2.1, h.2.2.2.2.2 (by decide)⟩

/-- C7: when the backend answers the groups before group `j` of a bind with
well-formed results that end well and answers group `j` with rows followed by
a fatal status, then the bind and the fetches after it return until one of
them throws the connection-fatal error "Failed to fetch row", and an unbounded
fetch at the latest does; before that the statement is not complete and only
groups up to `j` have been sent; after it the statement is not complete, the
held result is released (`pRes_ = NULL`), exactly the groups `0 .. j` have
been sent, and no later fetch sends anything. -/
theorem fatal_status_stops_execution (s : PqResultSimple) (params : List SEXP)
    (goods : List Group) (bad : Group) (rest : List Reply) (ns : List Int)
    (h1 : params.length = s.cache.nparams_) (h2 : ¬ (params.length = 0 ∧ s.ready_ = true))
    (hs : s.pConn_.script = (goods ++ [bad]).map Group.reply ++ rest)
    (hk : goods.length < group_count params)
    (ha : ∀ g ∈ goods, g.answers s.pConn_.check_interrupts s.pConn_.socket ∧ g.ends_well)
    (hb : bad.answers s.pConn_.check_interrupts s.pConn_.socket
      ∧ bad.last.status = PGRES_FATAL_ERROR) :
    (execute s params (ns ++ [-1])).2 = some .fetch_row_failed
    ∧ Err.fetch_row_failed.what = "Failed to fetch row"
    ∧ Err.fetch_row_failed.raised = .by_conn_stop
    ∧ ((execute s params ns).2 = none ∨ (execute s params ns).2 = some .fetch_row_failed)
    ∧ ((execute s params ns).2 = none →
        (execute s params ns).1.complete_ = false
        ∧ ∃ i, i ≤ goods.length ∧ (execute s params ns).1.pConn_.sent
            = s.pConn_.sent ++ rows_sent params s.cache.nparams_ (i + 1))
    ∧ ((execute s params ns).2 = some .fetch_row_failed →
        (execute s params ns).1.complete_ = false
        ∧ (execute s params ns).1.pRes_ = none
        ∧ (execute s params ns).1.pConn_.sent
            = s.pConn_.sent ++ rows_sent params s.cache.nparams_ (goods.length + 1)
        ∧ ∀ ms, (fetch_all (execute s params ns).1 ms).pConn_.sent
            = (execute s params ns).1.pConn_.sent) := by
  have hx : (exec_of s params (goods ++ [bad]) rest true).sound :=
    ⟨by simp [exec_of]; omega, fun h => by simp [exec_of] at h⟩
  obtain ⟨p1, p2, p3⟩ := bind_position s params (goods ++ [bad]) rest true h1 h2 hs hx
    (by
      intro g hg
      rcases List.mem_append.1 hg with hg | hg
      · exact (ha g hg).1
      · simp only [List.mem_singleton] at hg
        rw [hg]
        exact hb.1)
    (closes_of_fatal_last goods bad (fun g hg => (ha g hg).2) hb.2)
  have hbroken : ∀ s2, Broken (exec_of s params (goods ++ [bad]) rest true) s2 →
      s2.complete_ = false ∧ s2.pRes_ = none
      ∧ s2.pConn_.sent = s.pConn_.sent ++ rows_sent params s.cache.nparams_ (goods.length + 1)
      ∧ ∀ ms, (fetch_all s2 ms).pConn_.sent = s2.pConn_.sent := by
    intro s2 h
    refine ⟨h.1, h.2.2.2.1, by rw [h.2.2.2.2.2.2.2.2]; simp [exec_of], ?_⟩
    intro ms
    rw [fetch_all_broken _ ms s2 h]
  have hrow : ∀ s2 r q, AtRow (exec_of s params (goods ++ [bad]) rest true) r q s2 →
      s2.complete_ = false
      ∧ ∃ i, i ≤ goods.length
        ∧ s2.pConn_.sent = s.pConn_.sent ++ rows_sent params s.cache.nparams_ (i + 1) := by
    intro s2 r q h
    obtain ⟨nd, rows, t, todo, hS, _, _, _, hc, _, _, hu, _⟩ := h
    refine ⟨hc, nd, ?_, by rw [hS.sent]; rfl⟩
    simp only [exec_of, List.length_append, List.length_singleton] at hu
    omega
  refine ⟨?_, rfl, rfl, ?_⟩
  · -- an unbounded fetch at the end meets the fatal result, unless a call before it did
    unfold execute
    cases hq : all_rows (goods ++ [bad]) with
    | nil =>
      have hthrow := p2 rfl hq
      rcases hbind : bind s params with ⟨s1, u | e⟩
      · rw [hbind] at hthrow; simp at hthrow
      · rw [hbind] at hthrow
        simp only [Outcome.thrown.injEq] at hthrow
        subst hthrow
        rfl
    | cons r q =>
      rw [hq] at p1 p3
      obtain ⟨b1, _⟩ := p3 (Or.inr (by simp))
      rcases hbind : bind s params with ⟨s1, u | e⟩
      · rw [hbind] at p1
        dsimp only
        rw [fetches_append]
        rcases fetches_to_fatal _ hx rfl ns s1 r q p1 with ⟨f1, r1, q1, f2⟩ | ⟨f1, _⟩
        · rw [f1]
          dsimp only
          obtain ⟨g1, _⟩ := fetch_unbounded_to_fatal _ hx rfl _ r1 q1 (-1) (by decide) f2
          unfold fetches
          rcases hf : fetch (fetches s1 ns).1 (-1) with ⟨s3, c | e⟩
          · rw [hf] at g1; simp at g1
          · rw [hf] at g1
            simp only [Outcome.thrown.injEq] at g1
            subst g1
            rfl
        · rw [f1]
      · rw [hbind] at b1; simp at b1
  · -- what holds after any fetches
    unfold execute
    cases hq : all_rows (goods ++ [bad]) with
    | nil =>
      have hthrow := p2 rfl hq
      rw [hq] at p1
      have hbr : Broken (exec_of s params (goods ++ [bad]) rest true) (bind s params).1 := by
        simpa [Position, exec_of] using p1
      rcases hbind : bind s params with ⟨s1, u | e⟩
      · rw [hbind] at hthrow; simp at hthrow
      · rw [hbind] at hthrow hbr
        simp only [Outcome.thrown.injEq] at hthrow
        subst hthrow
        exact ⟨Or.inr rfl, fun h => by simp at h, fun _ => hbroken s1 hbr⟩
    | cons r q =>
      rw [hq] at p1 p3
      obtain ⟨b1, _⟩ := p3 (Or.inr (by simp))
      rcases hbind : bind s params with ⟨s1, u | e⟩
      · rw [hbind] at p1
        dsimp only
        rcases fetches_to_fatal _ hx rfl ns s1 r q p1 with ⟨f1, r1, q1, f2⟩ | ⟨f1, f2⟩
        · exact ⟨Or.inl f1, fun _ => hrow _ r1 q1 f2, fun h => by rw [f1] at h; simp at h⟩
        · exact ⟨Or.inr f1, fun h => by rw [f1] at h; simp at h, fun _ => hbroken _ f2⟩
      · rw [hbind] at b1; simp at b1

/-- Witness of C7: three groups are bound, the backend fails on the third
(index 2) after a row; an unbounded fetch throws, the statement stays
incomplete, the held result is released and three rows of parameters have
been sent. -/
theorem fatal_status_stops_execution_witness :
    (execute failing_stmt insert_params [-1]).2 = some .fetch_row_failed
    ∧ (execute failing_stmt insert_params [-1]).1.complete_ = false
    ∧ (execute failing_stmt insert_params [-1]).1.pRes_ = none
    ∧ (execute failing_stmt insert_params [-1]).1.pConn_.sent.length = 3
    ∧ (fetch_all (execute failing_stmt insert_params [-1]).1 [-1, 2, 0]).pConn_.sent
        = (execute failing_stmt insert_params [-1]).1.pConn_.sent := by
  have h := fatal_status_stops_execution failing_stmt insert_params
    [select_group, select_group] failing_group [] [-1] (by decide) (by decide) (by decide)
    (by decide) (by decide) (by decide)
  have he : (execute failing_stmt insert_params [-1]).2 = some .fetch_row_failed := by decide
  obtain ⟨g1, g2, g3, g4⟩ := h.2.2.2.2.2 he
  exact ⟨he, g1, g2, by rw [g3]; decide, g4 _⟩

/-- Counterexample to C10: `INSERT INTO t VALUES ($1)` is bound with three
groups and completes; the invariant holds.  It is bound again, the backend
refuses the send, and the failed bind leaves `complete_ = true` with the
group counter at 0 of 3: the invariant is broken on this error outcome. -/
theorem failed_rebind_breaks_invariant :
    Reachable (Call.run insert_stmt (.bind insert_params))
    ∧ stream_invariant (Call.run insert_stmt (.bind insert_params))
    ∧ Call.error (Call.run insert_stmt (.bind insert_params)) (.bind insert_params)
        = some .send_failed
    ∧ ¬ stream_invariant
        (Call.run (Call.run insert_stmt (.bind insert_params)) (.bind insert_params)) := by
  refine ⟨Reachable.called _ _ (Reachable.created insert_stmt.pConn_ _ (by decide)), ?_, ?_, ?_⟩
  · decide
  · decide
  · decide

/-- C10 as amended: the invariant `0 ≤ currentGroup ≤ groupCount ∧ (complete ⇒
currentGroup == groupCount)` holds in the state the constructor leaves; its
first half holds in every reachable state; every call (`bind`, `fetch` with
any `n_max`, `get_column_info`) on a reachable state keeps the whole
invariant on every outcome but one: a `bind` of a statement that was complete
whose first send, or switch to single-row mode, fails leaves `complete_` set
with the group counter at 0 below the group count.  A `bind` that returns
establishes the invariant, and the loop bounds of the model are never
reached. -/
theorem stream_invariant_kept :
    (∀ conn s, create conn = .returned s → stream_invariant s)
    ∧ (∀ s, Reachable s → s.group_ ≤ s.groups_)
    ∧ (∀ s (call : Call), Reachable s → stream_invariant s →
        stream_invariant (call.run s)
        ∨ (∃ params, call = .bind params ∧ s.complete_ = true
            ∧ (call.error s = some .send_failed ∨ call.error s = some .single_row_failed)
            ∧ (call.run s).complete_ = true ∧ (call.run s).group_ = 0
            ∧ 0 < (call.run s).groups_))
    ∧ (∀ s params, Reachable s → Call.error s (.bind params) = none →
        stream_invariant (Call.run s (.bind params)))
    ∧ (∀ s (call : Call), Reachable s → call.error s ≠ some .out_of_fuel) := by
  refine ⟨fun conn s h => (create_invariant conn s h).1, fun s h => (reachable_range s h).1,
    ?_, ?_, ?_⟩
  · intro s call hr hi
    have hopen := (reachable_range s hr).2
    cases call with
    | bind params =>
      simp only [Call.run, Call.error]
      rcases bind_leaves s params with hl | ⟨l1, l2, l3, l4, l5⟩ | ⟨_, ⟨l1, l2⟩ | ⟨l1, l2⟩⟩
      · left; rw [hl]; exact hi
      · cases hc : s.complete_ with
        | false =>
          left
          exact ⟨by omega, fun h => by rw [l3, hc] at h; cases h⟩
        | true =>
          right
          refine ⟨params, rfl, rfl, ?_, by rw [l3, hc], l1, l2⟩
          rcases l5 with l5 | l5
          · left; rw [l5]
          · right; rw [l5]
      · left
        exact ⟨by omega, fun h => by rw [l1] at h; cases h⟩
      · left
        exact ⟨by omega, fun _ => l2⟩
    | fetch n_max =>
      left
      simp only [Call.run]
      rcases fetch_leaves s n_max hopen with hl | ⟨_, ⟨l1, l2⟩ | ⟨l1, l2⟩⟩
      · rw [hl]; exact hi
      · exact ⟨by omega, fun h => by rw [l1] at h; cases h⟩
      · exact ⟨by omega, fun _ => l2⟩
    | get_column_info => exact Or.inl hi
  · intro s params _ he
    simp only [Call.run, Call.error] at he ⊢
    by_cases h : params.length ≠ s.cache.nparams_ ∨ (params.length = 0 ∧ s.ready_ = true)
    · obtain ⟨_, e, he1, _⟩ := bind_rejected s params h
      rw [he1] at he
      simp at he
    · rw [not_or] at h
      rcases bind_leaves_passed s params (by simpa using h.1) h.2
        with ⟨_, _, _, _, l5⟩ | ⟨_, ⟨l1, l2⟩ | ⟨l1, l2⟩⟩
      · rcases l5 with l5 | l5 <;> (rw [l5] at he; simp at he)
      · exact ⟨by omega, fun h => by rw [l1] at h; cases h⟩
      · exact ⟨by omega, fun _ => l2⟩
  · intro s call hr
    have hopen := (reachable_range s hr).2
    cases call with
    | bind params =>
      simp only [Call.error]
      have := bind_total s params
      rcases hb : (bind s params).2 with u | e
      · simp
      · rw [hb] at this
        simpa using this
    | fetch n_max =>
      simp only [Call.error]
      have := fetch_total s n_max hopen
      rcases hb : (fetch s n_max).2 with u | e
      · simp
      · rw [hb] at this
        simpa using this
    | get_column_info => simp [Call.error]

/-- Witness of the amended C10: the completed `INSERT` is reachable and keeps
the invariant under an unbounded fetch; the failed re-bind is the outcome the
amended claim excepts. -/
theorem stream_invariant_kept_witness :
    stream_invariant
      (Call.run (Call.run insert_stmt (.bind insert_params)) (.fetch (-1)))
    ∧ (Call.run (Call.run insert_stmt (.bind insert_params)) (.bind insert_params)).group_
        ≤ (Call.run (Call.run insert_stmt (.bind insert_params)) (.bind insert_params)).groups_ := by
  have hr : Reachable (Call.run insert_stmt (.bind insert_params)) :=
    Reachable.called _ _ (Reachable.created insert_stmt.pConn_ _ (by decide))
  have h := stream_invariant_kept
  refine ⟨?_, h.2.1 _ (Reachable.called _ _ hr)⟩
  rcases h.2.2.1 _ (.fetch (-1)) hr (by decide) with h1 | ⟨params, h1, _⟩
  · exact h1
  · cases h1

end PqResultSimple

end RPostgres
